import Mathlib

/-!
Verification of the go-flowfile library: a shallow embedding of the FlowFile
v3 wire codec, the streaming File abstraction, the checksum engine, the
segmenter and the HTTP transaction logic, together with proofs about the
specified properties.

Byte sequences are modelled as lists of natural numbers (each entry a byte
value); Go int64 counters are modelled as Int; machine conversions such as
uint16(len) are modelled with explicit mod arithmetic.
-/

set_option maxRecDepth 4000

namespace Flowfile

/-- Bytes of a Go string or byte slice, modelled as a list of byte values. -/
abbrev Bytes := List Nat

/-- Byte list of an ASCII Lean string literal (code points equal bytes). -/
def strB (s : String) : Bytes := s.data.map Char.toNat

/-- One attribute in a FlowFile header, from attributes.go: a name and value
pair of Go strings, modelled as byte lists. -/
structure Attribute where
  name : Bytes
  value : Bytes
deriving DecidableEq, Repr

/-- A set of attributes in a FlowFile header, an ordered list. -/
abbrev Attributes := List Attribute

/-- File component of Go path.Split applied to a value: everything after the
final slash byte 47, the whole value when no slash occurs. -/
def pathSplitFile (v : Bytes) : Bytes :=
  (v.reverse.takeWhile (fun b => b ≠ 47)).reverse

/-- Value stored by Attributes.Set: the filename attribute is sanitized
through path.Split, every other attribute keeps its value unchanged. -/
def sanitizeVal (name v : Bytes) : Bytes :=
  if name = strB "filename" then pathSplitFile v else v

/-- Replacement step of Attributes.Set: replace the first entry with the
given name, or append a new entry at the end when the name is absent. -/
def setRaw : Attributes → Bytes → Bytes → Attributes
  | [], name, val => [⟨name, val⟩]
  | a :: rest, name, val =>
      if a.name = name then ⟨name, val⟩ :: rest else a :: setRaw rest name val

/-- Attributes.Set from attributes.go: sanitizes filename values, then
replaces the first matching entry or appends. -/
def Attributes.set (h : Attributes) (name val : Bytes) : Attributes :=
  setRaw h name (sanitizeVal name val)

/-- Attributes.Get from attributes.go: value of the first entry with the
given name, empty when absent. -/
def Attributes.get : Attributes → Bytes → Bytes
  | [], _ => []
  | a :: rest, name => if a.name = name then a.value else Attributes.get rest name

/-- Attributes.Unset from attributes.go: removes every entry with the given
name, keeping the order of the rest. -/
def Attributes.unset (h : Attributes) (name : Bytes) : Attributes :=
  h.filter (fun a => a.name ≠ name)

/-- Attributes.Clone from attributes.go: a deep copy; in the pure model the
copy is the list itself. -/
def Attributes.clone (h : Attributes) : Attributes := h

/-- Big-endian bytes of a value truncated to the given byte width, as
produced by binary.Write with an unsigned fixed width integer. -/
def beBytes : Nat → Nat → Bytes
  | 0, _ => []
  | w + 1, v => (v / 2 ^ (8 * w)) % 256 :: beBytes w v

/-- Big-endian encoding of uint16(n). -/
def u16be (n : Nat) : Bytes := beBytes 2 n

/-- Big-endian encoding of uint64(n). -/
def u64be (n : Nat) : Bytes := beBytes 8 n

/-- Value of a big-endian byte list, as read by binary.Read. -/
def beVal (l : Bytes) : Nat := l.foldl (fun a b => a * 256 + b) 0

/-- The 7 magic bytes NiFiFF3 starting every record header. -/
def ff3Magic : Bytes := strB "NiFiFF3"

/-- The 7 magic bytes NiFiEOF signalling end of a stream. -/
def ffEofMagic : Bytes := strB "NiFiEOF"

/-- Wire encoding of one attribute, from Attributes.WriteTo: 2-byte length,
name truncated to uint16(len), 2-byte length, value truncated likewise. -/
def encAttr (a : Attribute) : Bytes :=
  u16be a.name.length ++ a.name.take (a.name.length % 65536) ++
  u16be a.value.length ++ a.value.take (a.value.length % 65536)

/-- Attributes.WriteTo from attributes.go: magic, 2-byte attribute count,
then the first uint16(count) attributes encoded in order. -/
def attrsWriteTo (h : Attributes) : Bytes :=
  ff3Magic ++ u16be h.length ++ ((h.take (h.length % 65536)).map encAttr).flatten

/-- Semantics of one bytes.Buffer Read call into a fresh zeroed buffer of
size k: an empty source with k positive reports end of file, otherwise up to
k bytes are copied and the rest of the buffer keeps its zero fill. -/
def bufRead (k : Nat) (s : Bytes) : Option (Bytes × Bytes) :=
  if k = 0 then some ([], s)
  else if s.isEmpty then none
  else some (s.take k ++ List.replicate (k - s.length) 0, s.drop k)

/-- Semantics of io.ReadFull as used by binary.Read: exactly k bytes or an
error. -/
def readFull (k : Nat) (s : Bytes) : Option (Bytes × Bytes) :=
  if s.length < k then none else some (s.take k, s.drop k)

/-- Errors surfaced by Attributes.ReadFrom: the io.EOF signal (empty stream
or NiFiEOF magic) or a descriptive error for anything else. -/
inductive RErr where
  | eofSig
  | malformed
deriving DecidableEq, Repr

/-- Attribute loop of Attributes.ReadFrom: reads uint16(count) attributes,
each a length-prefixed name and value, installing each through Set. Any
short read surfaces as a wrapped (non-EOF) error, here none. -/
def readAttrsLoop : Nat → Attributes → Bytes → Option (Attributes × Bytes)
  | 0, h, s => some (h, s)
  | n + 1, h, s =>
      match readFull 2 s with
      | none => none
      | some (szb, s1) =>
        match bufRead (beVal szb) s1 with
        | none => none
        | some (nameB, s2) =>
          match readFull 2 s2 with
          | none => none
          | some (szb2, s3) =>
            match bufRead (beVal szb2) s3 with
            | none => none
            | some (valB, s4) => readAttrsLoop n (h.set nameB valB) s4

/-- Attributes.ReadFrom from attributes.go, reading from a byte stream:
checks the 7 magic bytes (empty stream and the NiFiEOF magic surface as
io.EOF), then reads the attribute count and the attribute loop. -/
def attrsReadFrom (h : Attributes) (s : Bytes) : Except RErr (Attributes × Bytes) :=
  match bufRead 7 s with
  | none => .error .eofSig
  | some (hdr, s1) =>
    if hdr = ffEofMagic then .error .eofSig
    else if hdr ≠ ff3Magic then .error .malformed
    else
      match readFull 2 s1 with
      | none => .error .malformed
      | some (cntb, s2) =>
        match readAttrsLoop (beVal cntb) h s2 with
        | none => .error .malformed
        | some (h2, s3) => .ok (h2, s3)

/-- Random-access sources behind a File: an in-memory reader such as
bytes.Reader, or an operating-system file handle that can be closed. -/
inductive RASrc where
  | mem (data : Bytes)
  | osfile (data : Bytes) (closed : Bool)
deriving DecidableEq, Repr

/-- Underlying bytes of a random-access source. -/
def RASrc.bytes : RASrc → Bytes
  | .mem d => d
  | .osfile d _ => d

/-- Checksum status flags from checksum.go (cksumPreinit through
cksumUnverified). -/
inductive CkStatus where
  | preinit
  | inited
  | failed
  | passed
  | unverified
deriving DecidableEq, Repr

/-- The File struct from file.go. The i, n, Size counters are int64. The
backing readers are modelled by their byte contents: r is the remaining
byte stream of a sequential reader, ra a random-access source, filePath the
contents of the on-disk file a deferred path refers to. The running hash is
modelled by the list of bytes fed to it so far. -/
structure GoFile where
  attrs : Attributes := []
  i : Int := 0
  n : Int := 0
  size : Int := 0
  r : Option Bytes := none
  ra : Option RASrc := none
  filePath : Option Bytes := none
  fileAutoOpen : Bool := false
  cksumStatus : CkStatus := .preinit
  cksumFed : Bytes := []
deriving DecidableEq, Repr

/-- Go conversion int64 to uint64 (two-complement reinterpretation). -/
def u64ofI64 (z : Int) : Nat := (z % (2 ^ 64 : Int)).toNat

/-- Go conversion uint64 to int64 (two-complement reinterpretation). -/
def i64ofU64 (n : Nat) : Int :=
  if n < 2 ^ 63 then (n : Int) else (n : Int) - 2 ^ 64

/-- Bytes a clean full read of the File content yields, given the cursor:
the remaining window of the backing source. This is what io.Copy obtains
from the File in writeTo when the backing holds the declared window. -/
def fileContent (f : GoFile) : Bytes :=
  match f.ra with
  | some src => (src.bytes.drop f.i.toNat).take f.n.toNat
  | none =>
    match f.r with
    | some d => d.take f.n.toNat
    | none =>
      match f.filePath with
      | some d => (d.drop f.i.toNat).take f.n.toNat
      | none => []

/-- writeTo from marshal.go: the attribute block, the 8-byte big-endian
uint64(Size), then the content copied out of the File. -/
def writeTo (f : GoFile) : Bytes :=
  attrsWriteTo f.attrs ++ u64be (u64ofI64 f.size) ++ fileContent f

/-- New from file.go applied to bytes.NewReader(C) and size len(C): the
reader supports ReadAt, so the File is random-access backed with the seek
position 0. -/
def newFile (C : Bytes) : GoFile :=
  { n := (C.length : Int), size := (C.length : Int), i := 0, ra := some (.mem C) }

/-- Encoding of a fresh FlowFile with attributes A and content C: writeTo
applied to New(bytes.NewReader(C), len(C)) with attributes A. -/
def writeToFresh (A : Attributes) (C : Bytes) : Bytes :=
  writeTo { newFile C with attrs := A }

/-- ReadFile from marshal.go, decoding from a bytes.Buffer (which is neither
a Seeker nor a ReaderAt): reads the attribute block into a nil attribute
set, the 8-byte big-endian size, and binds the remaining stream as the
sequential content reader. -/
def readFile (s : Bytes) : Except RErr GoFile :=
  match attrsReadFrom [] s with
  | .error e => .error e
  | .ok (a, s1) =>
    match readFull 8 s1 with
    | none => .error .malformed
    | some (szb, s2) =>
      let N := beVal szb
      .ok { attrs := a, size := i64ofU64 N, n := i64ofU64 N, i := 0, r := some s2 }

/-- Input and output errors crossing the File boundary. -/
inductive IOErr where
  | eof
  | closedFile
  | badOffset
  | missingReader
deriving DecidableEq, Repr

/-- Read semantics of a sequential byte source such as bytes.Buffer: a
request for zero bytes succeeds reading nothing, an exhausted source
reports end of file, otherwise up to k bytes come off the front. -/
def seqRead (data : Bytes) (k : Nat) : Bytes × Option IOErr × Bytes :=
  if k = 0 then ([], none, data)
  else if data.isEmpty then ([], some .eof, data)
  else (data.take k, none, data.drop k)

/-- ReadAt semantics over in-memory bytes: reads from the offset, reporting
end of file together with the data when fewer than k bytes are available. -/
def readAtData (d : Bytes) (off : Int) (k : Nat) : Bytes × Option IOErr :=
  if off < 0 then ([], some .badOffset)
  else
    let got := (d.drop off.toNat).take k
    (got, if got.length < k then some .eof else none)

/-- ReadAt on a random-access source; a closed file handle always errors. -/
def raReadAt (src : RASrc) (off : Int) (k : Nat) : Bytes × Option IOErr :=
  match src with
  | .mem d => readAtData d off k
  | .osfile _ true => ([], some .closedFile)
  | .osfile d false => readAtData d off k

/-- Lazy open step at the top of File.Read: a path-backed File whose handle
was never opened acquires an open handle on the on-disk contents. -/
def openIfNeeded (f : GoFile) : GoFile :=
  match f.filePath, f.ra with
  | some d, none => { f with ra := some (.osfile d false) }
  | _, _ => f

/-- Counter, hash and error bookkeeping at the tail of File.Read: the
counters advance by the bytes actually read, those bytes feed the running
hash while a checksum is being computed, and a clean read that exhausts the
remaining count turns into io.EOF. -/
def readFinish (f : GoFile) (got : Bytes) (e : Option IOErr) :
    Bytes × Option IOErr × GoFile :=
  let f2 : GoFile :=
    { f with n := f.n - got.length, i := f.i + got.length,
             cksumFed := if f.cksumStatus = .inited then f.cksumFed ++ got else f.cksumFed }
  (got, if e = none ∧ f2.n ≤ 0 then some .eof else e, f2)

/-- File.Read from file.go with a caller buffer of k bytes. Exhausted or
empty Files report io.EOF at once; a never-opened path-backed File opens
its handle; the buffer is capped to the remaining count; the read goes
through ReadAt when a random-access source exists, else through the
sequential reader. The result none models the nil-reader panic when no
backing exists at all. -/
def fileRead (f : GoFile) (k : Nat) : Option (Bytes × Option IOErr × GoFile) :=
  if f.n ≤ 0 ∨ f.size = 0 then some ([], some .eof, f)
  else
    let f1 := openIfNeeded f
    let k1 := min k f1.n.toNat
    match f1.ra with
    | some src =>
      let (got, e) := raReadAt src f1.i k1
      some (readFinish f1 got e)
    | none =>
      match f1.r with
      | some d =>
        let (got, e, d2) := seqRead d k1
        some (readFinish { f1 with r := some d2 } got e)
      | none => none

/-- File.Reset from file.go: a zero-Size File resets trivially; a File with
a random-access source or a deferred path rewinds the window; anything else
is not resettable (the result none). -/
def reset (f : GoFile) : Option GoFile :=
  if f.size = 0 then some f
  else if f.ra ≠ none ∨ f.filePath ≠ none then
    some { f with i := f.i + f.n - f.size, n := f.size }
  else none

/-- File.Close from file.go. A path-backed File asserts its random-access
handle to an operating-system file and closes it: the assertion panics
(result none) when the handle was never opened, and closing an already
closed handle reports an error. Otherwise a random-access File only
adjusts counters, and a sequential File first drains its unread bytes into
a discard sink with io.CopyN, which reports io.EOF when the stream runs
short. A File with no backing reports a missing-reader error without
touching the counters. -/
def close (f : GoFile) : Option (GoFile × Option IOErr) :=
  match f.filePath with
  | some _ =>
    match f.ra with
    | some (.osfile d true) => some ({ f with ra := some (.osfile d true) }, some .closedFile)
    | some (.osfile d false) => some ({ f with ra := some (.osfile d true) }, none)
    | _ => none
  | none =>
    match f.ra with
    | some _ => some ({ f with n := 0, i := f.i + f.n }, none)
    | none =>
      match f.r with
      | some d =>
        let e := if d.length < f.n.toNat then some IOErr.eof else none
        some ({ f with r := some (d.drop f.n.toNat), n := 0, i := f.i + f.n }, e)
      | none => some (f, some .missingReader)

/-- ASCII upper-casing of one byte, as strings.ToUpper acts on ASCII. -/
def asciiUpper (b : Nat) : Nat := if 97 ≤ b ∧ b ≤ 122 then b - 32 else b

/-- ASCII white space, as strings.TrimSpace recognizes it. -/
def isSpaceB (b : Nat) : Bool := b = 32 ∨ b = 9 ∨ b = 10 ∨ b = 11 ∨ b = 12 ∨ b = 13

/-- strings.TrimSpace over a byte string (ASCII range). -/
def trimB (v : Bytes) : Bytes :=
  ((v.dropWhile isSpaceB).reverse.dropWhile isSpaceB).reverse

/-- Checksum algorithm registry from checksum.go: TrimSpace of ToUpper of
the name must be one of the known algorithm names. -/
def checksumKnown (cksum : Bytes) : Bool :=
  let u := trimB (cksum.map asciiUpper)
  u = strB "MD5" ∨ u = strB "SHA1" ∨ u = strB "SHA" ∨ u = strB "SHA224" ∨
  u = strB "SHA256" ∨ u = strB "SHA384" ∨ u = strB "SHA512"

/-- A File with the checksumType and checksum attributes stamped, exactly
as AddChecksum writes them on success. -/
def stampChecksum (f : GoFile) (cksum v : Bytes) : GoFile :=
  { f with attrs := (f.attrs.set (strB "checksumType") cksum).set (strB "checksum") v }

/-- Outcomes of the AddChecksum ReadAt loop: the bytes fed to the hash on
success, a propagated read error, or divergence (the loop never returns
when the remaining count is zero inside the data). -/
inductive CkLoopRes where
  | ok (fed : Bytes)
  | errShort
  | diverge
deriving DecidableEq, Repr

/-- ReadAt loop of AddChecksum over the window of n remaining bytes at
offset i, with the pooled 32768-byte scratch buffer capped to n. Each full
read recurses on the rest of the window; a short read returns the ReadAt
error; reading the final chunk stamps success. -/
def addCkLoop (data : Bytes) : Nat → Nat → Bytes → CkLoopRes
  | 0, i, _ => if data.length ≤ i then .errShort else .diverge
  | n + 1, i, acc =>
      let bufLen := min 32768 (n + 1)
      let m := min bufLen (data.length - i)
      if m = 0 then .errShort
      else if m = n + 1 then .ok (acc ++ (data.drop i).take m)
      else if m < bufLen then .errShort
      else addCkLoop data (n + 1 - m) (i + m) (acc ++ (data.drop i).take m)
termination_by n _ _ => n
decreasing_by omega

/-- Outcomes of File.AddChecksum. -/
inductive CkOutcome where
  | ok (f : GoFile)
  | ioError
  | badType
  | noReadAt
  | hang
deriving DecidableEq, Repr

/-- File.AddChecksum from checksum.go, with the hex digest of the hashed
bytes supplied as the function digest. Empty Files succeed unchanged; an
unknown algorithm name is a configuration error; a path-backed File with no
open handle opens one locally; with a random-access source the window of
remaining bytes is hashed through the pooled buffer without moving the read
cursor and the checksumType and checksum attributes are stamped; without
one the File cannot be hashed. -/
def addChecksum (digest : Bytes → Bytes) (cksum : Bytes) (f : GoFile) : CkOutcome :=
  if f.size = 0 then .ok f
  else if ¬ checksumKnown cksum then .badType
  else
    let ra0 : Option RASrc :=
      match f.ra, f.filePath with
      | none, some d => some (.osfile d false)
      | ra, _ => ra
    match ra0 with
    | none => .noReadAt
    | some (.osfile _ true) => .ioError
    | some src =>
      if f.i < 0 then .ioError
      else
        match addCkLoop src.bytes f.n.toNat f.i.toNat [] with
        | .ok fed => .ok (stampChecksum f cksum (digest fed))
        | .errShort => .ioError
        | .diverge => .hang

/-- Decimal bytes of an int64, as produced by Sprintf with the d verb. -/
def decB (z : Int) : Bytes := strB (toString z)

/-- Fixed data of one SegmentBySize call threaded through its loop: the
segment size, the total size, the fragment count, the prepared base
attributes and the supply of fresh uuid values. -/
structure SegCtx where
  K : Int
  size : Int
  count : Int
  base : Attributes
  us : Nat → Bytes

/-- One fragment File built inside the SegmentBySize loop: the shared
backing at the window from st to en, and the base attributes extended with
the merge reason, the fragment offset, the 1-based fragment index, the
fragment count and a fresh uuid. -/
def mkFrag (c : SegCtx) (ra : Option RASrc) (fp : Option Bytes)
    (idx : Nat) (st en : Int) (u : Nat) : GoFile :=
  { ra := ra, filePath := fp, i := st, size := en - st, n := en - st,
    attrs := (((((c.base.clone).set (strB "merge.reason")
        (strB "MAX_BYTES_THRESHOLD_REACHED")).set
        (strB "fragment.offset") (decB st)).set
        (strB "fragment.index") (decB (idx + 1 : Int))).set
        (strB "fragment.count") (decB c.count)).set (strB "uuid") (c.us u) }

/-- Loop of SegmentBySize: each iteration advances the window start to the
previous end, extends the end by the segment size capping it at the total
size, closes and forgets an auto-opened handle on the parent, and emits a
fragment sharing the current backing. -/
def segLoop (c : SegCtx) : Option RASrc → Bool → Option Bytes →
    Nat → Nat → Int → Nat → List GoFile
  | _, _, _, _, 0, _, _ => []
  | ra, auto, fp, idx, rem + 1, en, u =>
      let st := en
      let en1 := en + c.K
      let en2 := if en1 > c.size then c.size else en1
      let ra2 := if auto then none else ra
      mkFrag c ra2 fp idx st en2 u :: segLoop c ra2 false fp (idx + 1) rem en2 (u + 1)

/-- Preparation phase of SegmentBySize: the fragment count, ceil of size
over segmentSize computed as truncated division of size minus one, and the
base attributes, recording the parent identity under fragment.identifier
(generating a fresh parent uuid first when none exists, which consumes the
first supplied uuid), the original size, filename and, when present, the
original checksum, clearing the per-fragment checksum attributes. -/
def segCtxOf (us : Nat → Bytes) (inf : GoFile) (segmentSize : Int) : SegCtx :=
  let size := inf.size
  let count : Int := (size - 1).tdiv segmentSize + 1
  let b0 := inf.attrs.clone
  let hasUuid := b0.get (strB "uuid") ≠ []
  let b1 := if hasUuid then b0 else b0.set (strB "uuid") (us 0)
  let shift : Nat := if hasUuid then 0 else 1
  let b2 := b1.set (strB "fragment.identifier") (b1.get (strB "uuid"))
  let b3 := b2.unset (strB "uuid")
  let b4 := b3.set (strB "segment.original.size") (decB size)
  let b5 := b4.set (strB "segment.original.filename") (inf.attrs.get (strB "filename"))
  let b6 :=
    if inf.attrs.get (strB "checksumType") ≠ [] then
      ((((b5.set (strB "segment.original.checksumType")
          (inf.attrs.get (strB "checksumType"))).set
          (strB "segment.original.checksum")
          (inf.attrs.get (strB "checksum"))).unset
          (strB "checksumType")).unset (strB "checksum"))
    else b5
  ⟨segmentSize, size, count, b6, fun u => us (u + shift)⟩

/-- SegmentBySize from segmenter.go, with fresh uuid values supplied by us.
Needs a random-access or path backing; a file no larger than one segment is
returned unchanged; otherwise the base attributes record the parent
identity, original size, filename and checksum, and the loop emits
ceil(size over segmentSize) fragments, leaving the parent exhausted with
its random-access source detached. -/
def segmentBySize (us : Nat → Bytes) (inf : GoFile) (segmentSize : Int) :
    Except String (List GoFile × GoFile) :=
  if inf.ra = none ∧ inf.filePath = none then
    .error "Must have a reader with ReadAt capabilities to segment"
  else
    if segmentSize = 0 ∨ inf.size < segmentSize then .ok ([inf], inf)
    else
      let c := segCtxOf us inf segmentSize
      let out := segLoop c inf.ra inf.fileAutoOpen inf.filePath 0 c.count.toNat inf.i 0
      let auto2 := if c.count.toNat = 0 then inf.fileAutoOpen else false
      .ok (out, { inf with ra := none, i := inf.i - inf.n, n := 0, fileAutoOpen := auto2 })

/-- Session state of an HTTPTransaction touched by Handshake: the url, the
transaction id, the server identity, the negotiated maximum partition size,
and a marker recording whether the last-send timestamp was written. -/
structure HSState where
  url : String
  transactionID : String
  server : String
  maxPartitionSize : Int
  lastSendSet : Bool
deriving DecidableEq, Repr

/-- Observed HEAD probe response: status code, final request url after
redirects, and the consulted headers as byte strings (absent headers are
empty). -/
structure HSResponse where
  statusCode : Nat
  finalURL : String
  accept : Bytes
  protoVersion : Bytes
  maxPartSize : Bytes
  server : String
deriving DecidableEq, Repr

/-- strings.Split on the comma byte: the list of separated components, one
empty component for the empty string. -/
def splitOnComma : Bytes → List Bytes
  | [] => [[]]
  | b :: rest =>
      match splitOnComma rest with
      | [] => [[b]]
      | h :: t => if b = 44 then [] :: h :: t else (b :: h) :: t

/-- Accept header check of Handshake: some comma-separated component must
start with the flowfile-v3 media type. -/
def acceptHasFF (accept : Bytes) : Bool :=
  (splitOnComma accept).any (fun t => (strB "application/flowfile-v3").isPrefixOf t)

/-- strconv.ParseUint with base 10 and 64 bits: decimal digits only, value
below 2 to the 64. -/
def parseUint64 (s : Bytes) : Option Nat :=
  if s.length ≠ 0 ∧ s.all (fun b => 48 ≤ b ∧ b ≤ 57) then
    let v := s.foldl (fun a b => a * 10 + (b - 48)) 0
    if v < 2 ^ 64 then some v else none
  else none

/-- HTTPTransaction.Handshake from marshal.go, given the probe response and
the fresh transaction id: checks the status code, then records the final
redirected url, then checks the Accept header (recording the last-send
time), then the protocol version, then parses the maximum partition size
header (absent means zero, unparsable leaves the old value) and finally
installs the transaction id and server identity. The first component is
the error, none meaning success. -/
def handshake (st : HSState) (txid : String) (res : HSResponse) :
    Option String × HSState :=
  if res.statusCode = 200 then
    let st1 := { st with url := res.finalURL }
    if ¬ acceptHasFF res.accept then
      (some "Server does not support flowfile-v3", st1)
    else
      let st2 := { st1 with lastSendSet := true }
      if res.protoVersion ≠ strB "3" then
        (some "Unknown NiFi TransferVersion", st2)
      else
        let st3 :=
          if res.maxPartSize ≠ [] then
            match parseUint64 res.maxPartSize with
            | some v => { st2 with maxPartitionSize := i64ofU64 v }
            | none => st2
          else { st2 with maxPartitionSize := 0 }
        (none, { st3 with transactionID := txid, server := res.server })
  else if res.statusCode = 405 then
    (some "Method not allowed, make sure the remote server accepts flowfile-v3", st)
  else (some "Unexpected status code", st)

/-- Observable actions of HTTPTransaction.Send: a network POST attempt
(numbered by doSend call), a Reset of one file, the retry delay, and the
re-handshake. -/
inductive SendEv where
  | netAttempt (k : Nat)
  | resetFile (j : Nat)
  | sleep
  | rehandshake
deriving DecidableEq, Repr

/-- Errors surfaced by Send: the failure of a numbered doSend attempt, or
the reset error of a non-resettable file. -/
inductive SendErr where
  | sendFail (k : Nat)
  | resetErr
deriving DecidableEq, Repr

/-- Reset pass over the batch before retrying: each file is reset in order,
stopping at the first file that is not resettable. -/
def resetAll : List GoFile → Nat → List SendEv × Option SendErr × List GoFile
  | [], _ => ([], none, [])
  | f :: fs, j =>
      match reset f with
      | none => ([.resetFile j], some .resetErr, f :: fs)
      | some f2 =>
          let r := resetAll fs (j + 1)
          (.resetFile j :: r.1, r.2.1, f2 :: r.2.2)

/-- Retry loop of Send: while the previous attempt failed and the try count
is below RetryCount, run doSend again; a success ends the loop, a failure
sleeps for the retry delay and re-handshakes before the next test of the
loop condition. The outcome function gives the success of each numbered
doSend call; prev carries the error of the last failed attempt. -/
def retryLoop (outcomes : Nat → Bool) : Nat → Nat → SendErr → List SendEv × Option SendErr
  | _, 0, prev => ([], some prev)
  | t, fuel + 1, _ =>
      if outcomes t then ([.netAttempt t], none)
      else
        let rest := retryLoop outcomes (t + 1) fuel (.sendFail t)
        (.netAttempt t :: .sleep :: .rehandshake :: rest.1, rest.2)

/-- HTTPTransaction.Send from marshal.go, as the trace of its observable
actions and its result. An empty batch does nothing. Otherwise doSend runs
once; on success, or when retries are disabled, Send returns at once. A
failed first attempt with retries enabled resets every file, failing with
the reset error if any file is not resettable, and then runs the retry
loop from try 1 up to RetryCount. -/
def send (outcomes : Nat → Bool) (retryCount : Int) (files : List GoFile) :
    List SendEv × Option SendErr :=
  if files.isEmpty then ([], none)
  else if outcomes 0 then ([.netAttempt 0], none)
  else if retryCount ≤ 0 then ([.netAttempt 0], some (.sendFail 0))
  else
    let r := resetAll files 0
    match r.2.1 with
    | some e => (.netAttempt 0 :: r.1, some e)
    | none =>
      let l := retryLoop outcomes 1 (retryCount - 1).toNat (.sendFail 0)
      (.netAttempt 0 :: r.1 ++ l.1, l.2)

/-! Supporting lemmas about the byte-level readers and the attribute
codec. -/

theorem bufRead_exact (b rest : Bytes) : bufRead b.length (b ++ rest) = some (b, rest) := by
  rcases b with _ | ⟨x, xs⟩
  · simp [bufRead]
  · show bufRead (x :: xs).length ((x :: xs) ++ rest) = some (x :: xs, rest)
    unfold bufRead
    rw [if_neg (by simp), if_neg (by simp)]
    have h3 : (x :: xs).length - ((x :: xs) ++ rest).length = 0 := by
      simp [List.length_append]
    rw [List.take_left, List.drop_left, h3]
    simp

theorem readFull_exact (k : Nat) (b rest : Bytes) (h : b.length = k) :
    readFull k (b ++ rest) = some (b, rest) := by
  subst h
  unfold readFull
  rw [if_neg (by simp [List.length_append]), List.take_left, List.drop_left]

theorem beBytes_length (w v : Nat) : (beBytes w v).length = w := by
  induction w generalizing v with
  | zero => rfl
  | succ w ih => simp [beBytes, ih]

theorem beVal_u16be (n : Nat) (h : n < 65536) : beVal (u16be n) = n := by
  simp only [beVal, u16be, beBytes, List.foldl]
  omega

theorem beVal_u64be (n : Nat) (h : n < 2 ^ 64) : beVal (u64be n) = n := by
  simp only [beVal, u64be, beBytes, List.foldl]
  omega

theorem setRaw_of_absent (h : Attributes) (name val : Bytes)
    (ha : ∀ a ∈ h, a.name ≠ name) : setRaw h name val = h ++ [⟨name, val⟩] := by
  induction h with
  | nil => rfl
  | cons a rest ih =>
      simp only [setRaw]
      rw [if_neg (ha a (by simp))]
      simp [ih (fun b hb => ha b (by simp [hb]))]

theorem set_of_absent (h : Attributes) (a : Attribute)
    (ha : ∀ b ∈ h, b.name ≠ a.name) (hs : sanitizeVal a.name a.value = a.value) :
    Attributes.set h a.name a.value = h ++ [a] := by
  rw [Attributes.set, hs, setRaw_of_absent h a.name a.value ha]

theorem foldl_set_of_fresh (A : Attributes) :
    ∀ h0 : Attributes,
    A.Pairwise (fun x y => x.name ≠ y.name) →
    (∀ a ∈ A, ∀ b ∈ h0, b.name ≠ a.name) →
    (∀ a ∈ A, sanitizeVal a.name a.value = a.value) →
    A.foldl (fun h a => Attributes.set h a.name a.value) h0 = h0 ++ A := by
  induction A with
  | nil => intro h0 _ _ _; simp
  | cons a A ih =>
      intro h0 hp hdisj hs
      simp only [List.foldl_cons]
      rw [set_of_absent h0 a (hdisj a (by simp)) (hs a (by simp))]
      rw [ih (h0 ++ [a]) (List.Pairwise.of_cons hp) ?_ (fun b hb => hs b (by simp [hb]))]
      · simp
      · intro b hb c hc
        rcases List.mem_append.mp hc with hc | hc
        · exact hdisj b (by simp [hb]) c hc
        · simp only [List.mem_singleton] at hc
          subst hc
          exact (List.pairwise_cons.mp hp).1 b hb


theorem readAttrsLoop_enc (A : Attributes) :
    ∀ (h0 : Attributes) (rest : Bytes),
    (∀ a ∈ A, a.name.length < 65536 ∧ a.value.length < 65536) →
    readAttrsLoop A.length h0 ((A.map encAttr).flatten ++ rest) =
      some (A.foldl (fun h a => Attributes.set h a.name a.value) h0, rest) := by
  induction A with
  | nil => intro h0 rest _; simp [readAttrsLoop]
  | cons a A ih =>
      intro h0 rest hl
      obtain ⟨hn, hv⟩ := hl a (by simp)
      have hmodn : a.name.length % 65536 = a.name.length := Nat.mod_eq_of_lt hn
      have hmodv : a.value.length % 65536 = a.value.length := Nat.mod_eq_of_lt hv
      show readAttrsLoop (A.length + 1) h0 _ = _
      simp only [List.map_cons, List.flatten_cons, encAttr, hmodn, hmodv,
        List.take_length, List.append_assoc]
      unfold readAttrsLoop
      simp only [readFull_exact 2 (u16be a.name.length) _ (beBytes_length 2 _),
        beVal_u16be a.name.length hn, bufRead_exact a.name,
        readFull_exact 2 (u16be a.value.length) _ (beBytes_length 2 _),
        beVal_u16be a.value.length hv, bufRead_exact a.value]
      rw [ih (h0.set a.name a.value) rest (fun b hb => hl b (by simp [hb]))]
      simp

theorem attrsReadFrom_writeTo (A : Attributes) (rest : Bytes)
    (hc : A.length < 65536)
    (hl : ∀ a ∈ A, a.name.length < 65536 ∧ a.value.length < 65536) :
    attrsReadFrom [] (attrsWriteTo A ++ rest) =
      .ok (A.foldl (fun h a => Attributes.set h a.name a.value) [], rest) := by
  have hmod : A.length % 65536 = A.length := Nat.mod_eq_of_lt hc
  unfold attrsWriteTo
  simp only [hmod, List.take_length, List.append_assoc]
  unfold attrsReadFrom
  have h7 : (7 : Nat) = ff3Magic.length := by decide
  rw [h7]
  simp only [bufRead_exact ff3Magic]
  rw [if_neg (by decide), if_neg (by decide)]
  simp only [readFull_exact 2 (u16be A.length) _ (beBytes_length 2 _),
    beVal_u16be A.length hc, readAttrsLoop_enc A [] rest hl]

/-- The attributes decoded from a decode result, for stating claims. -/
def decodedAttrs (s : Bytes) : Option Attributes :=
  (readFile s).toOption.map GoFile.attrs

/-- The content decoded from a decode result: the bytes a full read of the
decoded File yields. -/
def decodedContent (s : Bytes) : Option Bytes :=
  (readFile s).toOption.map fileContent

theorem u64ofI64_ofNat (m : Nat) (h : m < 2 ^ 64) : u64ofI64 (m : Int) = m := by
  unfold u64ofI64
  omega

theorem fileContent_fresh (A : Attributes) (C : Bytes) :
    fileContent { newFile C with attrs := A } = C := by
  simp [fileContent, newFile, RASrc.bytes]

/-- C1: for every attribute set with pairwise distinct names, fewer than
65536 entries, names and values shorter than 65536 bytes and every filename
value fixed by path sanitization, and every content shorter than 2 to the
63 bytes, encoding with writeTo and decoding with ReadFile restores the
attributes and the content exactly, the zero-attribute and empty-content
cases included. -/
theorem c1_encode_decode_roundTrip (A : Attributes) (C : Bytes)
    (hc : A.length < 65536)
    (hl : ∀ a ∈ A, a.name.length < 65536 ∧ a.value.length < 65536)
    (hd : A.Pairwise (fun x y => x.name ≠ y.name))
    (hs : ∀ a ∈ A, sanitizeVal a.name a.value = a.value)
    (hC : C.length < 2 ^ 63) :
    readFile (writeToFresh A C) =
      .ok { attrs := A, size := (C.length : Int), n := (C.length : Int), i := 0, r := some C } ∧
    decodedAttrs (writeToFresh A C) = some A ∧
    decodedContent (writeToFresh A C) = some C := by
  have hC64 : C.length < 2 ^ 64 := by omega
  have henc : writeToFresh A C = attrsWriteTo A ++ (u64be C.length ++ C) := by
    unfold writeToFresh writeTo
    rw [fileContent_fresh]
    show attrsWriteTo A ++ u64be (u64ofI64 ((C.length : Int))) ++ C = _
    rw [u64ofI64_ofNat C.length hC64, List.append_assoc]
  have hdec : readFile (writeToFresh A C) =
      .ok { attrs := A, size := (C.length : Int), n := (C.length : Int), i := 0, r := some C } := by
    rw [henc]
    unfold readFile
    rw [attrsReadFrom_writeTo A _ hc hl,
      foldl_set_of_fresh A [] hd (by intro a _ b hb; cases hb) hs]
    simp only [List.nil_append]
    rw [readFull_exact 8 (u64be C.length) C (beBytes_length 8 _)]
    simp only [beVal_u64be C.length hC64]
    rw [i64ofU64, if_pos hC]
  refine ⟨hdec, ?_, ?_⟩
  · rw [decodedAttrs, hdec]; rfl
  · rw [decodedContent, hdec]
    simp [fileContent, Except.toOption]

/-- Witness for the round-trip theorem at a concrete two-attribute record,
and at the zero-attribute, empty-content record. -/
theorem c1_encode_decode_roundTrip_witness :
    (decodedAttrs (writeToFresh [⟨strB "path", strB "./"⟩] (strB "hi")) =
        some [⟨strB "path", strB "./"⟩] ∧
      decodedContent (writeToFresh [⟨strB "path", strB "./"⟩] (strB "hi")) =
        some (strB "hi")) ∧
    decodedAttrs (writeToFresh [] []) = some [] ∧
    decodedContent (writeToFresh [] []) = some [] := by
  refine ⟨⟨?_, ?_⟩, ?_, ?_⟩
  · exact (c1_encode_decode_roundTrip [⟨strB "path", strB "./"⟩] (strB "hi")
      (by decide) (by decide) (by decide) (by decide) (by decide)).2.1
  · exact (c1_encode_decode_roundTrip [⟨strB "path", strB "./"⟩] (strB "hi")
      (by decide) (by decide) (by decide) (by decide) (by decide)).2.2
  · exact (c1_encode_decode_roundTrip [] [] (by decide) (by decide) (by decide)
      (by decide) (by decide)).2.1
  · exact (c1_encode_decode_roundTrip [] [] (by decide) (by decide) (by decide)
      (by decide) (by decide)).2.2

/-- C1 counterexample: a filename attribute whose value holds a slash is
decoded sanitized, so decode of encode does not restore every attribute
set: the claim quantified over all attribute sets fails. -/
theorem c1_roundTrip_cex :
    decodedAttrs (writeToFresh [⟨strB "filename", strB "a/b"⟩] []) ≠
      some [⟨strB "filename", strB "a/b"⟩] ∧
    decodedAttrs (writeToFresh [⟨strB "filename", strB "a/b"⟩] []) =
      some [⟨strB "filename", strB "b"⟩] := by
  constructor
  · decide
  · decide


/-- Attributes of the end-to-end example record from file_test.go. -/
def exAttrs : Attributes := [⟨strB "path", strB "./"⟩, ⟨strB "filename", strB "abcd-efgh"⟩]

/-- Content of the end-to-end example record: 36 bytes. -/
def exContent : Bytes := strB "this is a custom string for flowfile"

/-- Wire bytes the code produces for the example record, with the 8-byte
big-endian content length 0x24, the 36-byte length of the content; these
are the bytes asserted by the ExampleFile output in file_test.go. -/
def exWire : Bytes :=
  strB "NiFiFF3" ++ [0, 2] ++ [0, 4] ++ strB "path" ++ [0, 2] ++ strB "./" ++
  [0, 8] ++ strB "filename" ++ [0, 9] ++ strB "abcd-efgh" ++
  [0, 0, 0, 0, 0, 0, 0, 0x24] ++ exContent

/-- Wire bytes the claim describes for the example record, with content
length 0x25 (37). -/
def exWireClaimed : Bytes :=
  strB "NiFiFF3" ++ [0, 2] ++ [0, 4] ++ strB "path" ++ [0, 2] ++ strB "./" ++
  [0, 8] ++ strB "filename" ++ [0, 9] ++ strB "abcd-efgh" ++
  [0, 0, 0, 0, 0, 0, 0, 0x25] ++ exContent

/-- C2 counterexample: the example content is 36 bytes, so the encoder
emits the length byte 0x24, not the claimed 0x25: the produced wire bytes
differ from the claimed ones (and only there). -/
theorem c2_example_wire_cex :
    writeToFresh exAttrs exContent ≠ exWireClaimed ∧
    exContent.length = 36 := by
  constructor
  · decide
  · decide

/-- C2: encoding the example record with attributes path ./ and filename
abcd-efgh and the 36-byte example content produces exactly the wire bytes
with the 8-byte big-endian content length 0x24, and decoding those wire
bytes reproduces the same attributes and content. -/
theorem c2_example_wire :
    writeToFresh exAttrs exContent = exWire ∧
    decodedAttrs exWire = some exAttrs ∧
    decodedContent exWire = some exContent := by
  refine ⟨by decide, by decide, by decide⟩


theorem get_setRaw_same (h : Attributes) (name val : Bytes) :
    (setRaw h name val).get name = val := by
  induction h with
  | nil => simp [setRaw, Attributes.get]
  | cons a rest ih =>
      by_cases hc : a.name = name
      · simp [setRaw, hc, Attributes.get]
      · simp [setRaw, hc, Attributes.get, ih]

theorem get_setRaw_ne (h : Attributes) (name val n2 : Bytes) (hne : n2 ≠ name) :
    (setRaw h name val).get n2 = h.get n2 := by
  induction h with
  | nil =>
      have hns : name ≠ n2 := Ne.symm hne
      simp [setRaw, Attributes.get, hns]
  | cons a rest ih =>
      by_cases hc : a.name = name
      · subst hc
        simp [setRaw, Attributes.get, Ne.symm hne]
      · simp [setRaw, hc, Attributes.get, ih]

theorem get_set_same (h : Attributes) (name v : Bytes) :
    (h.set name v).get name = sanitizeVal name v := by
  rw [Attributes.set, get_setRaw_same]

theorem get_set_ne (h : Attributes) (name v n2 : Bytes) (hne : n2 ≠ name) :
    (h.set name v).get n2 = h.get n2 := by
  rw [Attributes.set, get_setRaw_ne _ _ _ _ hne]

theorem mkFrag_get_offset (c : SegCtx) (ra : Option RASrc) (fp : Option Bytes)
    (idx : Nat) (st en : Int) (u : Nat) :
    (mkFrag c ra fp idx st en u).attrs.get (strB "fragment.offset") = decB st := by
  unfold mkFrag
  rw [get_set_ne _ _ _ _ (by decide), get_set_ne _ _ _ _ (by decide),
    get_set_ne _ _ _ _ (by decide), get_set_same]
  rw [sanitizeVal, if_neg (by decide)]

theorem mkFrag_get_index (c : SegCtx) (ra : Option RASrc) (fp : Option Bytes)
    (idx : Nat) (st en : Int) (u : Nat) :
    (mkFrag c ra fp idx st en u).attrs.get (strB "fragment.index") = decB (idx + 1 : Int) := by
  unfold mkFrag
  rw [get_set_ne _ _ _ _ (by decide), get_set_ne _ _ _ _ (by decide), get_set_same]
  rw [sanitizeVal, if_neg (by decide)]

theorem mkFrag_get_count (c : SegCtx) (ra : Option RASrc) (fp : Option Bytes)
    (idx : Nat) (st en : Int) (u : Nat) :
    (mkFrag c ra fp idx st en u).attrs.get (strB "fragment.count") = decB c.count := by
  unfold mkFrag
  rw [get_set_ne _ _ _ _ (by decide), get_set_same]
  rw [sanitizeVal, if_neg (by decide)]


theorem segLoop_eq (c : SegCtx) (ra : Option RASrc) (fp : Option Bytes) (hK : 0 < c.K) :
    ∀ (r idx : Nat) (en : Int) (u : Nat),
    en ≤ c.size → c.size ≤ en + (r : Int) * c.K →
    (1 ≤ r → en + ((r : Int) - 1) * c.K < c.size) →
    segLoop c ra false fp idx r en u =
      (List.range r).map (fun t => mkFrag c ra fp (idx + t) (en + (t : Int) * c.K)
        (min (en + ((t : Int) + 1) * c.K) c.size) (u + t)) := by
  intro r
  induction r with
  | zero => intro idx en u _ _ _; rfl
  | succ r ih =>
      intro idx en u h1 h2 h3
      have hstep : (if en + c.K > c.size then c.size else en + c.K) = min (en + c.K) c.size := by
        split <;> omega
      simp only [segLoop, Bool.false_eq_true, if_false]
      rw [hstep, List.range_succ_eq_map, List.map_cons]
      have hhead : mkFrag c ra fp idx en (min (en + c.K) c.size) u =
          mkFrag c ra fp (idx + 0) (en + ((0 : Nat) : Int) * c.K)
            (min (en + (((0 : Nat) : Int) + 1) * c.K) c.size) (u + 0) := by
        norm_num
      rw [hhead]
      congr 1
      rcases Nat.eq_zero_or_pos r with hr | hr
      · subst hr; rfl
      · have hr1 : (1 : Int) ≤ (r : Int) := by exact_mod_cast hr
        have hKK : c.K ≤ (r : Int) * c.K := by
          calc c.K = 1 * c.K := (one_mul _).symm
          _ ≤ (r : Int) * c.K := mul_le_mul_of_nonneg_right hr1 hK.le
        have h3s := h3 (by omega)
        have h3r : en + (r : Int) * c.K < c.size := by
          push_cast at h3s
          linarith
        have hmin : min (en + c.K) c.size = en + c.K := min_eq_left (by linarith)
        rw [hmin]
        rw [ih (idx + 1) (en + c.K) (u + 1) (by linarith)
          (by push_cast at h2 ⊢; linarith)
          (fun _ => by linarith)]
        rw [List.map_map]
        apply List.map_congr_left
        intro t _
        have e1 : (idx + 1) + t = idx + (t + 1) := by omega
        have e4 : (u + 1) + t = u + (t + 1) := by omega
        have e2 : en + c.K + (t : Int) * c.K = en + (((t + 1 : Nat)) : Int) * c.K := by
          push_cast; ring
        have e3 : min (en + c.K + ((t : Int) + 1) * c.K) c.size =
            min (en + ((((t + 1 : Nat)) : Int) + 1) * c.K) c.size := by
          congr 1; push_cast; ring
        show mkFrag c ra fp ((idx + 1) + t) (en + c.K + (t : Int) * c.K)
            (min (en + c.K + ((t : Int) + 1) * c.K) c.size) ((u + 1) + t) =
          mkFrag c ra fp (idx + (t + 1)) (en + (((t + 1 : Nat)) : Int) * c.K)
            (min (en + ((((t + 1 : Nat)) : Int) + 1) * c.K) c.size) (u + (t + 1))
        rw [e1, e2, e3, e4]


theorem ceil_facts (S K : Nat) (hK : 0 < K) (hKS : K < S) :
    S ≤ ((S - 1) / K + 1) * K ∧ ((S - 1) / K) * K ≤ S - 1 := by
  constructor
  · have h := Nat.div_add_mod (S - 1) K
    have hrem : (S - 1) % K < K := Nat.mod_lt _ hK
    have hexp : ((S - 1) / K + 1) * K = K * ((S - 1) / K) + K := by ring
    rw [hexp]
    generalize hq : K * ((S - 1) / K) = KQ at h ⊢
    omega
  · exact Nat.div_mul_le_self _ _

theorem getElem_range_map {α : Type} (n j : Nat) (F : Nat → α) (g : α)
    (h : ((List.range n).map F)[j]? = some g) : j < n ∧ g = F j := by
  by_cases hj : j < n
  · rw [List.getElem?_map, List.getElem?_range hj] at h
    exact ⟨hj, (Option.some.inj h).symm⟩
  · rw [List.getElem?_eq_none (by simpa using Nat.le_of_not_lt hj)] at h
    cases h

theorem mkFrag_i (c : SegCtx) (ra : Option RASrc) (fp : Option Bytes)
    (idx : Nat) (st en : Int) (u : Nat) : (mkFrag c ra fp idx st en u).i = st := rfl

theorem mkFrag_size (c : SegCtx) (ra : Option RASrc) (fp : Option Bytes)
    (idx : Nat) (st en : Int) (u : Nat) : (mkFrag c ra fp idx st en u).size = en - st := rfl

theorem mkFrag_n (c : SegCtx) (ra : Option RASrc) (fp : Option Bytes)
    (idx : Nat) (st en : Int) (u : Nat) : (mkFrag c ra fp idx st en u).n = en - st := rfl

/-- C3: segmenting a fresh random-access File of total size S with segment
size K, 0 < K < S, produces ceil(S over K) fragments whose offset and
length windows tile the interval from 0 to S exactly, with no gaps and no
overlaps; each fragment has its full window remaining, and carries the
fragment.offset of its window start, a 1-based fragment.index and the
fragment.count equal to the number of fragments. -/
theorem c3_segment_tiling :
    (∀ (us : Nat → Bytes) (f : GoFile) (S K : Nat),
    f.i = 0 → f.n = (S : Int) → f.size = (S : Int) →
    f.ra ≠ none → f.fileAutoOpen = false →
    0 < K → K < S →
    ∃ (out : List GoFile) (f2 : GoFile), segmentBySize us f (K : Int) = .ok (out, f2) ∧
      out.length = (S + K - 1) / K ∧
      (∀ (j : Nat) (g : GoFile), out[j]? = some g →
        g.i = ((j * K : Nat) : Int) ∧
        g.size = min (((j + 1) * K : Nat) : Int) (S : Int) - ((j * K : Nat) : Int) ∧
        g.n = g.size ∧
        g.attrs.get (strB "fragment.offset") = decB ((j * K : Nat) : Int) ∧
        g.attrs.get (strB "fragment.index") = decB ((j : Int) + 1) ∧
        g.attrs.get (strB "fragment.count") = decB (((S + K - 1) / K : Nat) : Int)) ∧
      (∀ (j : Nat) (g g2 : GoFile), out[j]? = some g → out[j + 1]? = some g2 →
        g2.i = g.i + g.size) ∧
      (∀ g : GoFile, out[0]? = some g → g.i = 0) ∧
      (∀ g : GoFile, out[out.length - 1]? = some g → g.i + g.size = (S : Int)) ∧
      (∀ (j : Nat) (g : GoFile), out[j]? = some g → 0 < g.size)) ∧
    (segmentBySize (fun _ => []) { size := 10485760, n := 10485760, ra := some (.mem []) }
        (3145728 : Int)).toOption.map (fun p => p.1.map (fun g => (g.i, g.size))) =
      some [(0, 3145728), (3145728, 3145728), (6291456, 3145728), (9437184, 1048576)] := by
  constructor
  swap
  · rfl
  intro us f S K hi hn hsz hra hauto hK hKS
  obtain ⟨A, fi, fn, fsz, fr, fra, ffp, fauto, fck, ffed⟩ := f
  simp only at hi hn hsz hra hauto
  subst hi hn hsz hauto
  have hS1 : 1 ≤ S := by omega
  obtain ⟨hSle, hqle⟩ := ceil_facts S K hK hKS
  have hcnt_eq : (S - 1) / K + 1 = (S + K - 1) / K := by
    rw [show S + K - 1 = (S - 1) + K from by omega, Nat.add_div_right _ hK]
  have htd : ((S : Int) - 1).tdiv (K : Int) = (((S - 1) / K : Nat) : Int) := by
    rw [show ((S : Int) - 1) = ((S - 1 : Nat) : Int) from by omega]
    rfl
  set inf : GoFile := ⟨A, 0, (S : Int), (S : Int), fr, fra, ffp, false, fck, ffed⟩ with hinf
  set c := segCtxOf us inf (K : Int) with hc
  have hcK : c.K = (K : Int) := rfl
  have hcSize : c.size = (S : Int) := rfl
  have hcCount : c.count = ((S : Int) - 1).tdiv (K : Int) + 1 := rfl
  set cnt := (S - 1) / K + 1 with hcntdef
  have hcnt1 : 1 ≤ cnt := Nat.le_add_left 1 _
  have hcountCast : c.count = (cnt : Int) := by
    rw [hcCount, htd]; push_cast; ring
  have hcnttoNat : c.count.toNat = cnt := by
    rw [hcountCast]; exact Int.toNat_natCast _
  -- guards for the loop characterization
  have hKi : (0 : Int) < c.K := by rw [hcK]; exact_mod_cast hK
  have hqltS : ((S - 1) / K) * K < S := by
    generalize hG : ((S - 1) / K) * K = QK at hqle ⊢
    omega
  have hg1 : (0 : Int) ≤ c.size := by rw [hcSize]; positivity
  have hg2 : c.size ≤ 0 + (cnt : Int) * c.K := by
    rw [hcSize, hcK, zero_add]
    exact_mod_cast hSle
  have hg3 : 1 ≤ cnt → (0 : Int) + ((cnt : Int) - 1) * c.K < c.size := by
    intro _
    rw [hcSize, hcK, zero_add]
    have he : ((cnt : Int) - 1) = (((S - 1) / K : Nat) : Int) := by
      rw [hcntdef]; push_cast; ring
    rw [he]
    exact_mod_cast hqltS
  have hloopEq := segLoop_eq c fra ffp hKi cnt 0 0 0 hg1 hg2 hg3
  have hok0 : segmentBySize us inf (K : Int) =
      .ok (segLoop c fra false ffp 0 c.count.toNat 0 0,
        ⟨A, 0 - (S : Int), 0, (S : Int), fr, none, ffp,
          if c.count.toNat = 0 then false else false, fck, ffed⟩) := by
    unfold segmentBySize
    have hBneg : ¬((K : Int) = 0 ∨ inf.size < (K : Int)) := by
      have his : inf.size = (S : Int) := rfl
      rw [his]
      omega
    rw [if_neg (by rintro ⟨h1, _⟩; exact hra h1), if_neg hBneg]
  rw [hcnttoNat, hloopEq, if_neg (by omega : ¬ cnt = 0)] at hok0
  refine ⟨_, _, hok0, ?_, ?_, ?_, ?_, ?_, ?_⟩
  · -- fragment count
    simpa using hcnt_eq
  · -- per-fragment window and attributes
    intro j g hg
    obtain ⟨hj, rfl⟩ := getElem_range_map _ _ _ _ hg
    have hjq : j ≤ (S - 1) / K := by omega
    have hjK_le : j * K ≤ ((S - 1) / K) * K := Nat.mul_le_mul_right K hjq
    have hjKS : j * K < S := lt_of_le_of_lt hjK_le hqltS
    refine ⟨?_, ?_, ?_, ?_, ?_, ?_⟩
    · show (0 : Int) + (j : Int) * c.K = _
      rw [hcK]; push_cast; ring
    · show min ((0 : Int) + ((j : Int) + 1) * c.K) c.size - ((0 : Int) + (j : Int) * c.K) = _
      rw [hcK, hcSize]; push_cast; ring_nf
    · rfl
    · rw [mkFrag_get_offset]
      congr 1
      rw [hcK]; push_cast; ring
    · rw [mkFrag_get_index]
      congr 1
      push_cast; ring
    · rw [mkFrag_get_count, hcountCast]
      congr 1
      exact_mod_cast hcnt_eq
  · -- adjacent windows: no gaps, no overlaps
    intro j g g2 hg hg2
    obtain ⟨hj, rfl⟩ := getElem_range_map _ _ _ _ hg
    obtain ⟨hj2, rfl⟩ := getElem_range_map _ _ _ _ hg2
    have hj1q : j + 1 ≤ (S - 1) / K := by omega
    have hle : (j + 1) * K ≤ ((S - 1) / K) * K := Nat.mul_le_mul_right K hj1q
    have hltS : (j + 1) * K < S := lt_of_le_of_lt hle hqltS
    show (0 : Int) + ((j + 1 : Nat) : Int) * c.K =
      ((0 : Int) + (j : Int) * c.K) +
        (min ((0 : Int) + ((j : Int) + 1) * c.K) c.size - ((0 : Int) + (j : Int) * c.K))
    rw [hcK, hcSize]
    have hminL : min ((0 : Int) + ((j : Int) + 1) * (K : Int)) (S : Int) =
        (0 : Int) + ((j : Int) + 1) * (K : Int) := by
      apply min_eq_left
      rw [zero_add]
      calc ((j : Int) + 1) * (K : Int) = (((j + 1) * K : Nat) : Int) := by push_cast; ring
      _ ≤ (S : Int) := by exact_mod_cast le_of_lt hltS
    rw [hminL]
    push_cast; ring
  · -- the first window starts at offset zero
    intro g hg
    obtain ⟨_, rfl⟩ := getElem_range_map _ _ _ _ hg
    show (0 : Int) + ((0 : Nat) : Int) * c.K = 0
    norm_num
  · -- the last window ends exactly at S
    intro g hg
    simp only [List.length_map, List.length_range] at hg
    obtain ⟨hjlt, rfl⟩ := getElem_range_map _ _ _ _ hg
    show ((0 : Int) + ((cnt - 1 : Nat) : Int) * c.K) +
      (min ((0 : Int) + (((cnt - 1 : Nat) : Int) + 1) * c.K) c.size -
        ((0 : Int) + ((cnt - 1 : Nat) : Int) * c.K)) = (S : Int)
    rw [add_sub_cancel, hcK, hcSize]
    have hc1 : ((cnt - 1 : Nat) : Int) + 1 = (cnt : Int) := by
      have : (cnt - 1) + 1 = cnt := by omega
      exact_mod_cast this
    rw [hc1]
    apply min_eq_right
    rw [zero_add]
    calc (S : Int) ≤ ((cnt * K : Nat) : Int) := by exact_mod_cast hSle
    _ = (cnt : Int) * (K : Int) := by push_cast; ring
  · -- every window is nonempty
    intro j g hg
    obtain ⟨hj, rfl⟩ := getElem_range_map _ _ _ _ hg
    have hjq : j ≤ (S - 1) / K := by omega
    have hjK_le : j * K ≤ ((S - 1) / K) * K := Nat.mul_le_mul_right K hjq
    have hjKS : j * K < S := lt_of_le_of_lt hjK_le hqltS
    show 0 < min ((0 : Int) + ((j : Int) + 1) * c.K) c.size - ((0 : Int) + (j : Int) * c.K)
    rw [hcK, hcSize]
    have hKi2 : (0 : Int) < (K : Int) := by exact_mod_cast hK
    have h2 : (j : Int) * (K : Int) < (S : Int) := by
      calc (j : Int) * (K : Int) = ((j * K : Nat) : Int) := by push_cast; ring
      _ < (S : Int) := by exact_mod_cast hjKS
    have hmin2 : (0 : Int) + (j : Int) * (K : Int) <
        min ((0 : Int) + ((j : Int) + 1) * (K : Int)) (S : Int) := by
      apply lt_min
      · nlinarith
      · linarith
    linarith

/-- Witness for the segmentation theorem at size 10 and segment size 3. -/
theorem c3_segment_tiling_witness :
    ((0 : Nat) < 3 ∧ (3 : Nat) < 10) ∧
    (segmentBySize (fun _ => []) { size := 10, n := 10, ra := some (.mem []) }
        ((3 : Nat) : Int)).toOption.map (fun p => p.1.length) = some 4 := by
  constructor
  · exact ⟨by decide, by decide⟩
  · obtain ⟨out, f2, hok, hlen, _⟩ := c3_segment_tiling.1 (fun _ => [])
      { size := 10, n := 10, ra := some (.mem []) } 10 3 rfl (by decide) (by decide)
      (by decide) rfl (by decide) (by decide)
    rw [hok]
    show some out.length = some 4
    rw [hlen]


theorem seqRead_len (d : Bytes) (k : Nat) :
    (seqRead d k).1.length ≤ k ∧ ((seqRead d k).2.1 ≠ none → (seqRead d k).1 = []) := by
  unfold seqRead
  split_ifs with hk hemp
  · simp
  · simp
  · refine ⟨?_, by simp⟩
    simp only [List.length_take]
    omega

theorem readAtData_spec (d : Bytes) (off : Int) (k : Nat) (h : 0 ≤ off) :
    (readAtData d off k).1.length ≤ k ∧
    ((readAtData d off k).2 ≠ none → (readAtData d off k).1.length < k) := by
  unfold readAtData
  rw [if_neg (not_lt.mpr h)]
  constructor
  · simp [List.length_take]
  · intro hne
    by_cases hlt : ((d.drop off.toNat).take k).length < k
    · simpa using hlt
    · simp only [if_neg hlt] at hne
      exact absurd rfl hne


theorem c4_finish (f fb : GoFile) (k : Nat) (got0 : Bytes) (e0 : Option IOErr)
    (hbn : fb.n = f.n) (hbi : fb.i = f.i) (hbck : fb.cksumStatus = f.cksumStatus)
    (hbfed : fb.cksumFed = f.cksumFed)
    (hlen : got0.length ≤ min k f.n.toNat)
    (herr : e0 ≠ none → got0.length < min k fb.n.toNat ∨ got0 = [])
    (_h1 : 0 ≤ f.n) (hpos : 0 < f.n) :
    ∀ (got : Bytes) (e : Option IOErr) (f2 : GoFile),
    readFinish fb got0 e0 = (got, e, f2) →
      got.length ≤ min k f.n.toNat ∧
      f2.n = f.n - got.length ∧
      f2.i = f.i + got.length ∧
      (f.cksumStatus = .inited → f2.cksumFed = f.cksumFed ++ got) ∧
      (f.cksumStatus ≠ .inited → f2.cksumFed = f.cksumFed) ∧
      (f2.n = 0 ∧ 0 < f.size → e = some .eof) := by
  intro got e f2 hre
  unfold readFinish at hre
  simp only [Prod.ext_iff] at hre
  obtain ⟨h1e, h2e, h3e⟩ := hre
  subst h1e
  refine ⟨hlen, ?_, ?_, ?_, ?_, ?_⟩
  · rw [← h3e]; simp [hbn]
  · rw [← h3e]; simp [hbi]
  · intro hck
    rw [← h3e]
    simp only
    rw [if_pos (by rw [hbck]; exact hck), hbfed]
  · intro hck
    rw [← h3e]
    simp only
    rw [if_neg (by rw [hbck]; exact hck), hbfed]
  · rintro ⟨hn0, _⟩
    have hf2n : f2.n = f.n - (got0.length : Int) := by rw [← h3e]; simp [hbn]
    rw [hf2n] at hn0
    rcases he0 : e0 with _ | err
    · rw [he0] at h2e
      rw [← h2e, if_pos ⟨rfl, by rw [hbn]; omega⟩]
    · exfalso
      rcases herr (by simp [he0]) with hlt | hnil
      · rw [hbn] at hlt
        have : (got0.length : Int) < f.n := by
          have h2 : got0.length < f.n.toNat := lt_of_lt_of_le hlt (min_le_right _ _)
          omega
        omega
      · subst hnil
        simp at hn0
        omega


/-- C4: a Read copies at most the remaining count (and at most the buffer
size) into the caller buffer, advances the position and decrements the
remaining count by exactly the number of bytes read, feeds exactly the
bytes read into the running hash when a checksum is being computed, and
reports io.EOF whenever the remaining count has reached zero. -/
theorem c4_read_spec (f : GoFile) (k : Nat)
    (h0 : 0 ≤ f.i) (h1 : 0 ≤ f.n) :
    ∀ (got : Bytes) (e : Option IOErr) (f2 : GoFile),
    fileRead f k = some (got, e, f2) →
      got.length ≤ min k f.n.toNat ∧
      f2.n = f.n - got.length ∧
      f2.i = f.i + got.length ∧
      (f.cksumStatus = .inited → f2.cksumFed = f.cksumFed ++ got) ∧
      (f.cksumStatus ≠ .inited → f2.cksumFed = f.cksumFed) ∧
      (f2.n = 0 ∧ 0 < f.size → e = some .eof) ∧
      ((f.n ≤ 0 ∨ f.size = 0) → got = [] ∧ e = some .eof ∧ f2 = f) := by
  intro got e f2 heq
  by_cases hcond : f.n ≤ 0 ∨ f.size = 0
  · rw [fileRead, if_pos hcond] at heq
    obtain ⟨rfl, rfl, rfl⟩ : got = [] ∧ some IOErr.eof = e ∧ f = f2 := by
      injection heq with h
      injection h with ha hb
      injection hb with hb hc
      exact ⟨ha.symm, hb, hc⟩
    refine ⟨by simp, by simp, by simp, by simp, by simp, fun _ => rfl, fun _ => ⟨rfl, rfl, rfl⟩⟩
  · rw [fileRead, if_neg hcond] at heq
    have hfalse := hcond
    push_neg at hcond
    obtain ⟨hpos, hsz⟩ := hcond
    rcases hfp : f.filePath with _ | pd <;> rcases hra : f.ra with _ | src <;>
      simp only [openIfNeeded, hfp, hra] at heq
    · -- sequential backing (or none at all)
      rcases hr : f.r with _ | rd <;> simp only [hr] at heq
      · exact Option.noConfusion heq
      · rcases hs : seqRead rd (min k f.n.toNat) with ⟨got0, e0, d2⟩
        simp only [hs] at heq
        obtain ⟨hl, he⟩ := seqRead_len rd (min k f.n.toNat)
        rw [hs] at hl he
        have hlen : got0.length ≤ min k f.n.toNat := le_trans hl (le_refl _)
        obtain ⟨a, b, c, d, e2, g⟩ := c4_finish f { f with r := some d2, ra := none, filePath := none } k got0 e0
          rfl rfl rfl rfl hlen (fun hne => Or.inr (he hne)) h1 hpos got e f2
          (Option.some.inj heq)
        exact ⟨a, b, c, d, e2, g, fun hc => absurd hc hfalse⟩
    · -- random-access backing, no path
      cases src with
      | mem d =>
          simp only [raReadAt] at heq
          rcases hs : readAtData d f.i (min k f.n.toNat) with ⟨got0, e0⟩
          simp only [hs] at heq
          obtain ⟨hl, he⟩ := readAtData_spec d f.i (min k f.n.toNat) h0
          rw [hs] at hl he
          obtain ⟨a, b, c, d2, e2, g⟩ := c4_finish f f k got0 e0
            rfl rfl rfl rfl hl (fun hne => Or.inl (he hne)) h1 hpos got e f2
            (Option.some.inj heq)
          exact ⟨a, b, c, d2, e2, g, fun hc => absurd hc hfalse⟩
      | osfile d cl =>
          cases cl with
          | false =>
              simp only [raReadAt] at heq
              rcases hs : readAtData d f.i (min k f.n.toNat) with ⟨got0, e0⟩
              simp only [hs] at heq
              obtain ⟨hl, he⟩ := readAtData_spec d f.i (min k f.n.toNat) h0
              rw [hs] at hl he
              obtain ⟨a, b, c, d2, e2, g⟩ := c4_finish f f k got0 e0
                rfl rfl rfl rfl hl (fun hne => Or.inl (he hne)) h1 hpos got e f2
                (Option.some.inj heq)
              exact ⟨a, b, c, d2, e2, g, fun hc => absurd hc hfalse⟩
          | true =>
              simp only [raReadAt] at heq
              obtain ⟨a, b, c, d2, e2, g⟩ := c4_finish f f k [] (some .closedFile)
                rfl rfl rfl rfl (by simp) (fun _ => Or.inr rfl) h1 hpos got e f2
                (Option.some.inj heq)
              exact ⟨a, b, c, d2, e2, g, fun hc => absurd hc hfalse⟩
    · -- deferred path, opened on this Read
      rcases hs : readAtData pd f.i (min k f.n.toNat) with ⟨got0, e0⟩
      simp only [raReadAt, hs] at heq
      obtain ⟨hl, he⟩ := readAtData_spec pd f.i (min k f.n.toNat) h0
      rw [hs] at hl he
      obtain ⟨a, b, c, d2, e2, g⟩ := c4_finish f
        { f with ra := some (.osfile pd false), filePath := some pd }
        k got0 e0 rfl rfl rfl rfl hl (fun hne => Or.inl (he hne)) h1 hpos got e f2
        (Option.some.inj heq)
      exact ⟨a, b, c, d2, e2, g, fun hc => absurd hc hfalse⟩
    · -- path with an already open random-access handle
      cases src with
      | mem d =>
          simp only [raReadAt] at heq
          rcases hs : readAtData d f.i (min k f.n.toNat) with ⟨got0, e0⟩
          simp only [hs] at heq
          obtain ⟨hl, he⟩ := readAtData_spec d f.i (min k f.n.toNat) h0
          rw [hs] at hl he
          obtain ⟨a, b, c, d2, e2, g⟩ := c4_finish f f k got0 e0
            rfl rfl rfl rfl hl (fun hne => Or.inl (he hne)) h1 hpos got e f2
            (Option.some.inj heq)
          exact ⟨a, b, c, d2, e2, g, fun hc => absurd hc hfalse⟩
      | osfile d cl =>
          cases cl with
          | false =>
              simp only [raReadAt] at heq
              rcases hs : readAtData d f.i (min k f.n.toNat) with ⟨got0, e0⟩
              simp only [hs] at heq
              obtain ⟨hl, he⟩ := readAtData_spec d f.i (min k f.n.toNat) h0
              rw [hs] at hl he
              obtain ⟨a, b, c, d2, e2, g⟩ := c4_finish f f k got0 e0
                rfl rfl rfl rfl hl (fun hne => Or.inl (he hne)) h1 hpos got e f2
                (Option.some.inj heq)
              exact ⟨a, b, c, d2, e2, g, fun hc => absurd hc hfalse⟩
          | true =>
              simp only [raReadAt] at heq
              obtain ⟨a, b, c, d2, e2, g⟩ := c4_finish f f k [] (some .closedFile)
                rfl rfl rfl rfl (by simp) (fun _ => Or.inr rfl) h1 hpos got e f2
                (Option.some.inj heq)
              exact ⟨a, b, c, d2, e2, g, fun hc => absurd hc hfalse⟩

/-- Witness for the Read theorem at a concrete sequential File holding two
remaining bytes of a three-byte shared stream, read with a 5-byte buffer. -/
theorem c4_read_spec_witness :
    fileRead { r := some [42, 43, 44], n := 2, size := 2 : GoFile } 5 =
      some ([42, 43], some .eof, { r := some [44], i := 2, n := 0, size := 2 : GoFile }) ∧
    ({ r := some [44], i := 2, n := 0, size := 2 : GoFile } : GoFile).n =
      ({ r := some [42, 43, 44], n := 2, size := 2 : GoFile } : GoFile).n -
        (([42, 43] : Bytes).length : Int) := by
  have hres : fileRead { r := some [42, 43, 44], n := 2, size := 2 : GoFile } 5 =
      some ([42, 43], some .eof, { r := some [44], i := 2, n := 0, size := 2 : GoFile }) := by
    decide
  exact ⟨hres, (c4_read_spec _ 5 (by decide) (by decide) [42, 43] (some .eof) _ hres).2.1⟩


/-- C7 counterexample: a File backed only by a sequential reader but with
declared Size zero resets without error, so Reset does not fail for every
sequential-only File. -/
theorem c7_reset_cex :
    ({ r := some [1, 2, 3], size := 0 : GoFile }).ra = none ∧
    ({ r := some [1, 2, 3], size := 0 : GoFile }).filePath = none ∧
    reset { r := some [1, 2, 3], size := 0 : GoFile } =
      some { r := some [1, 2, 3], size := 0 : GoFile } := by
  exact ⟨rfl, rfl, by decide⟩

/-- C7: Reset succeeds exactly when the Size is zero or the File has a
random-access source or a deferred path; on a nonzero-Size success it
rewinds the position and remaining count to the original window, touching
nothing else, and a zero-Size Reset leaves the File untouched; every other
File (a nonempty sequential-only source) fails with the not-resettable
error. -/
theorem c7_reset_spec (f : GoFile) :
    (reset f ≠ none ↔ (f.size = 0 ∨ f.ra ≠ none ∨ f.filePath ≠ none)) ∧
    (f.size = 0 → reset f = some f) ∧
    (f.size ≠ 0 → ∀ f2 : GoFile, reset f = some f2 →
      f2.i = f.i + f.n - f.size ∧ f2.n = f.size ∧ f2.attrs = f.attrs ∧
      f2.r = f.r ∧ f2.ra = f.ra ∧ f2.filePath = f.filePath ∧ f2.size = f.size) := by
  unfold reset
  by_cases hs : f.size = 0
  · rw [if_pos hs]
    refine ⟨by simp [hs], fun _ => rfl, fun hns => absurd hs hns⟩
  · rw [if_neg hs]
    by_cases hb : f.ra ≠ none ∨ f.filePath ≠ none
    · rw [if_pos hb]
      refine ⟨by simp [hs, hb], fun h => absurd h hs, ?_⟩
      intro _ f2 h2
      obtain rfl := Option.some.inj h2
      exact ⟨rfl, rfl, rfl, rfl, rfl, rfl, rfl⟩
    · rw [if_neg hb]
      refine ⟨by simp [hs, hb], fun h => absurd h hs, fun _ f2 h2 => Option.noConfusion h2⟩

/-- Witness for the Reset theorem at a fully read random-access File. -/
theorem c7_reset_spec_witness :
    reset { ra := some (.mem [1, 2]), i := 2, n := 0, size := 2 : GoFile } =
      some { ra := some (.mem [1, 2]), i := 0, n := 2, size := 2 : GoFile } ∧
    ({ ra := some (.mem [1, 2]), i := 0, n := 2, size := 2 : GoFile } : GoFile).i =
      ({ ra := some (.mem [1, 2]), i := 2, n := 0, size := 2 : GoFile } : GoFile).i +
        ({ ra := some (.mem [1, 2]), i := 2, n := 0, size := 2 : GoFile } : GoFile).n -
        ({ ra := some (.mem [1, 2]), i := 2, n := 0, size := 2 : GoFile } : GoFile).size := by
  have hres : reset { ra := some (.mem [1, 2]), i := 2, n := 0, size := 2 : GoFile } =
      some { ra := some (.mem [1, 2]), i := 0, n := 2, size := 2 : GoFile } := by decide
  exact ⟨hres, ((c7_reset_spec _).2.2 (by decide) _ hres).1⟩

/-- C8 counterexample: closing an opened path-backed File twice returns the
already-closed error from the second Close, so the double Close is not
error-free for every backing kind. -/
theorem c8_close_twice_cex :
    close { filePath := some [5], ra := some (.osfile [5] false), n := 1, size := 1 : GoFile } =
      some ({ filePath := some [5], ra := some (.osfile [5] true), n := 1, size := 1 : GoFile },
        none) ∧
    close { filePath := some [5], ra := some (.osfile [5] true), n := 1, size := 1 : GoFile } =
      some ({ filePath := some [5], ra := some (.osfile [5] true), n := 1, size := 1 : GoFile },
        some .closedFile) := by
  exact ⟨by decide, by decide⟩

/-- C8: double Close semantics by backing kind. A sequential File whose
shared stream still holds its remaining bytes drains exactly those bytes on
the first Close with no error, and a second Close reads nothing further and
returns no error; a random-access File closes twice with no error and no
reads; a path-backed File with an open handle closes cleanly once, and the
second Close returns the already-closed error. -/
theorem c8_close_twice (f : GoFile) :
    (∀ d : Bytes, f.filePath = none → f.ra = none → f.r = some d → 0 ≤ f.n →
      f.n.toNat ≤ d.length →
      ∃ f1 f2 : GoFile, close f = some (f1, none) ∧
        f1.r = some (d.drop f.n.toNat) ∧ f1.n = 0 ∧
        close f1 = some (f2, none) ∧ f2.r = f1.r ∧ f2.n = 0) ∧
    (f.filePath = none → f.ra ≠ none →
      ∃ f1 f2 : GoFile, close f = some (f1, none) ∧ close f1 = some (f2, none) ∧
        f1.ra = f.ra ∧ f2.ra = f.ra) ∧
    (∀ dd d : Bytes, f.filePath = some dd → f.ra = some (.osfile d false) →
      ∃ f1 f2 : GoFile, close f = some (f1, none) ∧
        close f1 = some (f2, some .closedFile)) := by
  obtain ⟨A, fi, fn, fsz, fr, fra, ffp, fauto, fck, ffed⟩ := f
  refine ⟨?_, ?_, ?_⟩
  · intro d hfp hra hr hn hlen
    simp only at hfp hra hr hn hlen
    subst hfp hra hr
    have h1 : close ⟨A, fi, fn, fsz, some d, none, none, fauto, fck, ffed⟩ =
        some (⟨A, fi + fn, 0, fsz, some (d.drop fn.toNat), none, none, fauto, fck, ffed⟩,
          none) := by
      show some (_, if d.length < fn.toNat then some IOErr.eof else none) = _
      rw [if_neg (not_lt.mpr hlen)]
    have h2 : close ⟨A, fi + fn, 0, fsz, some (d.drop fn.toNat), none, none, fauto, fck, ffed⟩ =
        some (⟨A, (fi + fn) + 0, 0, fsz, some ((d.drop fn.toNat).drop (0 : Int).toNat),
          none, none, fauto, fck, ffed⟩, none) := by
      show some (_, if (d.drop fn.toNat).length < (0 : Int).toNat then some IOErr.eof
        else none) = _
      rw [if_neg (by simp)]
    exact ⟨_, _, h1, rfl, rfl, h2, by simp, rfl⟩
  · intro hfp hra
    simp only at hfp hra
    subst hfp
    rcases hsrc : fra with _ | src
    · exact absurd hsrc hra
    · subst hsrc
      exact ⟨_, _, rfl, rfl, rfl, rfl⟩
  · intro dd d hfp hra
    simp only at hfp hra
    subst hfp hra
    exact ⟨_, _, rfl, rfl⟩

/-- Witness for the double-Close theorem at a concrete sequential File:
the first Close drains the two remaining bytes with no error. -/
theorem c8_close_twice_witness :
    (close { r := some [9, 9, 9], n := 2, size := 2 : GoFile }).map
      (fun p => (p.1.r, p.1.n, p.2)) = some (some [9], 0, none) := by
  obtain ⟨f1, f2, h1, hr1, hn1, h2, hr2, hn2⟩ :=
    (c8_close_twice { r := some [9, 9, 9], n := 2, size := 2 : GoFile }).1
      [9, 9, 9] rfl rfl rfl (by decide) (by decide)
  rw [h1, Option.map_some', hr1, hn1]
  simp

/-- C10: Close on a path-backed File created from disk on which Read was
never called (so the handle was never opened) panics on the nil interface
assertion instead of returning an error value: the model result is none. -/
theorem c10_close_unread_path_panics :
    close { attrs := [⟨strB "filename", strB "x.dat"⟩],
            filePath := some [7, 8, 9], n := 3, size := 3 : GoFile } = none := by
  decide


theorem addCkLoop_ok (data : Bytes) :
    ∀ (n i : Nat) (acc : Bytes), 0 < n → i + n ≤ data.length →
    addCkLoop data n i acc = .ok (acc ++ (data.drop i).take n) := by
  intro n
  induction n using Nat.strong_induction_on with
  | _ n ih =>
    intro i acc hn hle
    match n, hn with
    | n + 1, _ =>
      simp only [addCkLoop]
      have hm : min (min 32768 (n + 1)) (data.length - i) = min 32768 (n + 1) := by
        omega
      rw [hm, if_neg (by omega)]
      by_cases hfull : min 32768 (n + 1) = n + 1
      · rw [if_pos hfull, hfull]
      · rw [if_neg hfull, if_neg (by omega)]
        rw [ih (n + 1 - min 32768 (n + 1)) (by omega) (i + min 32768 (n + 1))
          (acc ++ (data.drop i).take (min 32768 (n + 1))) (by omega) (by omega)]
        have hsplit : (data.drop i).take (n + 1) =
            (data.drop i).take (min 32768 (n + 1)) ++
              (data.drop (i + min 32768 (n + 1))).take (n + 1 - min 32768 (n + 1)) := by
          have h := List.take_add (data.drop i) (min 32768 (n + 1))
            (n + 1 - min 32768 (n + 1))
          rw [show min 32768 (n + 1) + (n + 1 - min 32768 (n + 1)) = n + 1 from by omega]
            at h
          rw [h, List.drop_drop]
        rw [hsplit, ← List.append_assoc]




/-- C9 counterexample: AddChecksum on an empty File backed only by a
sequential reader returns no error (it is a silent no-op), so it does not
fail for every one-shot sequential source. -/
theorem c9_addChecksum_cex :
    ({ r := some [1, 2, 3], size := 0 : GoFile }).ra = none ∧
    ({ r := some [1, 2, 3], size := 0 : GoFile }).filePath = none ∧
    addChecksum (fun _ => []) (strB "SHA256") { r := some [1, 2, 3], size := 0 : GoFile } =
      .ok { r := some [1, 2, 3], size := 0 : GoFile } := by
  exact ⟨rfl, rfl, by decide⟩

/-- C9: AddChecksum on a nonempty File fails when the backing is a one-shot
sequential stream (with the configuration error for an unknown algorithm
name taking priority); on a random-access or path-backed File whose window
lies inside the source it succeeds, hashing exactly the remaining window
without moving the read cursor and stamping only the checksumType and
checksum attributes; every other attribute keeps its value. -/
theorem c9_addChecksum_spec (digest : Bytes → Bytes) (name : Bytes) (f : GoFile)
    (h0 : 0 ≤ f.i) (hpos : 0 < f.n) (hns : f.n ≤ f.size) :
    (f.ra = none → f.filePath = none →
      addChecksum digest name f = (if checksumKnown name then .noReadAt else .badType)) ∧
    (∀ d : Bytes, f.ra = some (.mem d) → checksumKnown name = true →
      f.i.toNat + f.n.toNat ≤ d.length →
      addChecksum digest name f =
        .ok (stampChecksum f name (digest ((d.drop f.i.toNat).take f.n.toNat)))) ∧
    (∀ d : Bytes, f.ra = none → f.filePath = some d → checksumKnown name = true →
      f.i.toNat + f.n.toNat ≤ d.length →
      addChecksum digest name f =
        .ok (stampChecksum f name (digest ((d.drop f.i.toNat).take f.n.toNat)))) ∧
    (∀ g : GoFile, ∀ v : Bytes, addChecksum digest name f = .ok (stampChecksum g name v) →
      (stampChecksum g name v).i = g.i ∧ (stampChecksum g name v).n = g.n) ∧
    (∀ v nm : Bytes, nm ≠ strB "checksumType" → nm ≠ strB "checksum" →
      (stampChecksum f name v).attrs.get nm = f.attrs.get nm) := by
  have hsz : ¬ f.size = 0 := by omega
  have hnpos : 0 < f.n.toNat := by omega
  refine ⟨?_, ?_, ?_, ?_, ?_⟩
  · intro hra hfp
    by_cases hk : checksumKnown name
    · rw [if_pos hk]
      rw [addChecksum, if_neg hsz, if_neg (by simp [hk])]
      simp only [hra, hfp]
    · rw [if_neg hk]
      rw [addChecksum, if_neg hsz, if_pos (by simp [hk])]
  · intro d hra hk hwin
    rw [addChecksum, if_neg hsz, if_neg (by simp [hk])]
    simp only [hra]
    rw [if_neg (not_lt.mpr h0)]
    rw [show (RASrc.mem d).bytes = d from rfl]
    rw [addCkLoop_ok d f.n.toNat f.i.toNat [] hnpos (by omega)]
    simp
  · intro d hra hfp hk hwin
    rw [addChecksum, if_neg hsz, if_neg (by simp [hk])]
    simp only [hra, hfp]
    rw [if_neg (not_lt.mpr h0)]
    rw [show (RASrc.osfile d false).bytes = d from rfl]
    rw [addCkLoop_ok d f.n.toNat f.i.toNat [] hnpos (by omega)]
    simp
  · intro g v _
    exact ⟨rfl, rfl⟩
  · intro v nm h1 h2
    show ((f.attrs.set (strB "checksumType") name).set (strB "checksum") v).get nm = _
    rw [get_set_ne _ _ _ _ h2, get_set_ne _ _ _ _ h1]

/-- Witness for the AddChecksum theorem at a concrete in-memory File with
the identity digest: the stamped checksum is exactly the remaining window,
bytes 6 and 7. -/
theorem c9_addChecksum_spec_witness :
    checksumKnown (strB "SHA256") = true ∧
    addChecksum (fun b => b) (strB "SHA256")
        { ra := some (.mem [5, 6, 7, 8]), i := 1, n := 2, size := 4 : GoFile } =
      .ok (stampChecksum { ra := some (.mem [5, 6, 7, 8]), i := 1, n := 2, size := 4 : GoFile }
        (strB "SHA256") [6, 7]) := by
  refine ⟨by decide, ?_⟩
  have h := (c9_addChecksum_spec (fun b => b) (strB "SHA256")
      { ra := some (.mem [5, 6, 7, 8]), i := 1, n := 2, size := 4 : GoFile }
      (by decide) (by decide) (by decide)).2.1 [5, 6, 7, 8] rfl (by decide) (by decide)
  rw [h]
  decide


/-- C5 counterexample: a probe response with status 200 and a redirected
final url but no flowfile-v3 Accept entry makes Handshake fail, yet the
session url has already been replaced by the redirected url: the failed
Handshake does not leave the session state as it was. -/
theorem c5_handshake_cex :
    (handshake ⟨"http://a", "t0", "s0", 5, false⟩ "tx"
      ⟨200, "http://b", strB "text/html", strB "3", [], "srv"⟩).1 ≠ none ∧
    (handshake ⟨"http://a", "t0", "s0", 5, false⟩ "tx"
      ⟨200, "http://b", strB "text/html", strB "3", [], "srv"⟩).2.url = "http://b" ∧
    (handshake ⟨"http://a", "t0", "s0", 5, false⟩ "tx"
      ⟨200, "http://b", strB "text/html", strB "3", [], "srv"⟩).2 ≠
      ⟨"http://a", "t0", "s0", 5, false⟩ := by
  refine ⟨by decide, by decide, by decide⟩

/-- C5: Handshake succeeds exactly when the probe status is 200, the Accept
header lists a flowfile-v3 media type and the protocol version header is
exactly 3; on success the session url, transaction id, server identity and
maximum partition size are all replaced (absent header meaning zero,
unparsable header keeping the old value). On failure at the status stage
the state is untouched, but on failure at the Accept stage the url has
already been replaced, and on failure at the version stage the url and the
last-send marker have been replaced: a failed Handshake does not always
leave the state as it was. -/
theorem c5_handshake_spec (st : HSState) (txid : String) (res : HSResponse) :
    ((handshake st txid res).1 = none ↔
      (res.statusCode = 200 ∧ acceptHasFF res.accept = true ∧ res.protoVersion = strB "3")) ∧
    ((handshake st txid res).1 = none →
      (handshake st txid res).2.url = res.finalURL ∧
      (handshake st txid res).2.transactionID = txid ∧
      (handshake st txid res).2.server = res.server ∧
      (handshake st txid res).2.maxPartitionSize =
        (if res.maxPartSize ≠ [] then
          (match parseUint64 res.maxPartSize with
           | some v => i64ofU64 v
           | none => st.maxPartitionSize)
         else 0)) ∧
    (res.statusCode ≠ 200 → (handshake st txid res).2 = st) ∧
    (res.statusCode = 200 → acceptHasFF res.accept = false →
      (handshake st txid res).1 ≠ none ∧
      (handshake st txid res).2 = { st with url := res.finalURL }) ∧
    (res.statusCode = 200 → acceptHasFF res.accept = true → res.protoVersion ≠ strB "3" →
      (handshake st txid res).1 ≠ none ∧
      (handshake st txid res).2 = { st with url := res.finalURL, lastSendSet := true }) := by
  unfold handshake
  by_cases h200 : res.statusCode = 200
  · rw [if_pos h200]
    by_cases hacc : acceptHasFF res.accept
    · rw [if_neg (by simp [hacc])]
      by_cases hver : res.protoVersion = strB "3"
      · rw [if_neg (by simp [hver])]
        refine ⟨by simp [h200, hacc, hver], ?_, fun hne => absurd h200 hne,
          fun _ hacf => absurd hacf (by simp [hacc]), fun _ _ hv => absurd hver hv⟩
        intro _
        by_cases hmp : res.maxPartSize = []
        · simp [hmp]
        · rcases hpu : parseUint64 res.maxPartSize with _ | v <;> simp [hmp, hpu]
      · rw [if_pos hver]
        refine ⟨by simp [hver], fun h => absurd h (by simp), fun hne => absurd h200 hne,
          fun _ hacf => absurd hacf (by simp [hacc]), fun _ _ _ => ⟨by simp, rfl⟩⟩
    · rw [if_pos (by simpa using hacc)]
      refine ⟨by simp [hacc], fun h => absurd h (by simp), fun hne => absurd h200 hne,
        fun _ _ => ⟨by simp, rfl⟩, fun _ hact _ => absurd (by simp [hact] : acceptHasFF res.accept) hacc⟩
  · rw [if_neg h200]
    by_cases h405 : res.statusCode = 405
    · rw [if_pos h405]
      refine ⟨by simp [h200], fun h => absurd h (by simp), fun _ => rfl,
        fun h2 => absurd h2 h200, fun h2 => absurd h2 h200⟩
    · rw [if_neg h405]
      refine ⟨by simp [h200], fun h => absurd h (by simp), fun _ => rfl,
        fun h2 => absurd h2 h200, fun h2 => absurd h2 h200⟩

/-- Witness for the Handshake theorem at a fully compatible probe response
with a maximum partition size of 77. -/
theorem c5_handshake_spec_witness :
    (handshake ⟨"http://a", "t0", "s0", 5, false⟩ "tx"
      ⟨200, "http://b", strB "application/flowfile-v3", strB "3", strB "77", "srv"⟩).1 = none ∧
    (handshake ⟨"http://a", "t0", "s0", 5, false⟩ "tx"
      ⟨200, "http://b", strB "application/flowfile-v3", strB "3", strB "77", "srv"⟩).2.url = "http://b" := by
  have h := c5_handshake_spec ⟨"http://a", "t0", "s0", 5, false⟩ "tx"
    ⟨200, "http://b", strB "application/flowfile-v3", strB "3", strB "77", "srv"⟩
  have hok : (handshake ⟨"http://a", "t0", "s0", 5, false⟩ "tx"
      ⟨200, "http://b", strB "application/flowfile-v3", strB "3", strB "77", "srv"⟩).1 = none :=
    h.1.mpr ⟨rfl, by decide, rfl⟩
  exact ⟨hok, (h.2.1 hok).1⟩


/-- Marker for network POST attempts in a Send trace. -/
def isNet : SendEv → Bool
  | .netAttempt _ => true
  | .resetFile _ => false
  | .sleep => false
  | .rehandshake => false

/-- Marker for file Reset actions in a Send trace. -/
def isReset : SendEv → Bool
  | .netAttempt _ => false
  | .resetFile _ => true
  | .sleep => false
  | .rehandshake => false

/-- Marker for retry delays in a Send trace. -/
def isSleep : SendEv → Bool
  | .netAttempt _ => false
  | .resetFile _ => false
  | .sleep => true
  | .rehandshake => false

/-- Marker for re-handshakes in a Send trace. -/
def isRH : SendEv → Bool
  | .netAttempt _ => false
  | .resetFile _ => false
  | .sleep => false
  | .rehandshake => true

theorem isNet_netAttempt (k : Nat) : isNet (.netAttempt k) = true := rfl

theorem isNet_sleep : isNet .sleep = false := rfl

theorem isNet_rehandshake : isNet .rehandshake = false := rfl

theorem isReset_netAttempt (k : Nat) : isReset (.netAttempt k) = false := rfl

theorem isReset_sleep : isReset .sleep = false := rfl

theorem isReset_rehandshake : isReset .rehandshake = false := rfl

theorem isSleep_netAttempt (k : Nat) : isSleep (.netAttempt k) = false := rfl

theorem isSleep_sleep : isSleep .sleep = true := rfl

theorem isSleep_rehandshake : isSleep .rehandshake = false := rfl

theorem isRH_netAttempt (k : Nat) : isRH (.netAttempt k) = false := rfl

theorem isRH_sleep : isRH .sleep = false := rfl

theorem isRH_rehandshake : isRH .rehandshake = true := rfl

theorem resetAll_ok (files : List GoFile) (h : ∀ f ∈ files, reset f ≠ none) :
    ∀ j : Nat,
    (resetAll files j).1 = (List.range files.length).map (fun t => SendEv.resetFile (j + t)) ∧
    (resetAll files j).2.1 = none := by
  induction files with
  | nil => intro j; exact ⟨rfl, rfl⟩
  | cons f fs ih =>
      intro j
      rcases hr : reset f with _ | f2
      · exact absurd hr (h f (by simp))
      · obtain ⟨he, hn⟩ := ih (fun g hg => h g (by simp [hg])) (j + 1)
        simp only [resetAll, hr]
        refine ⟨?_, hn⟩
        rw [he, List.length_cons, List.range_succ_eq_map, List.map_cons, List.map_map]
        congr 1
        · simp
          intro a _
          omega

theorem resetAll_err (files : List GoFile) :
    ∀ j : Nat, (∃ f ∈ files, reset f = none) →
    (resetAll files j).2.1 = some .resetErr ∧
    ∀ ev ∈ (resetAll files j).1, isNet ev = false := by
  induction files with
  | nil => rintro j ⟨f, hf, _⟩; cases hf
  | cons f fs ih =>
      rintro j ⟨g, hg, hgr⟩
      rcases hr : reset f with _ | f2
      · simp only [resetAll, hr]
        refine ⟨by simp, ?_⟩
        intro ev hev
        simp only [List.mem_singleton] at hev
        subst hev
        rfl
      · have hgfs : ∃ g ∈ fs, reset g = none := by
          rcases List.mem_cons.mp hg with rfl | hmem
          · rw [hr] at hgr; cases hgr
          · exact ⟨g, hmem, hgr⟩
        obtain ⟨he, hevs⟩ := ih (j + 1) hgfs
        simp only [resetAll, hr]
        refine ⟨he, ?_⟩
        intro ev hmem
        rcases List.mem_cons.mp hmem with rfl | hmem2
        · rfl
        · exact hevs ev hmem2

theorem retryLoop_allfail (outcomes : Nat → Bool) (hall : ∀ t, outcomes t = false) :
    ∀ (fuel t : Nat) (prev : SendErr),
    (retryLoop outcomes t fuel prev).2 =
      some (if fuel = 0 then prev else .sendFail (t + fuel - 1)) ∧
    ((retryLoop outcomes t fuel prev).1.countP (fun ev => isNet ev)) = fuel ∧
    ((retryLoop outcomes t fuel prev).1.countP (fun ev => isReset ev)) = 0 ∧
    ((retryLoop outcomes t fuel prev).1.countP (fun ev => isSleep ev)) = fuel ∧
    ((retryLoop outcomes t fuel prev).1.countP (fun ev => isRH ev)) = fuel := by
  intro fuel
  induction fuel with
  | zero => intro t prev; exact ⟨rfl, rfl, rfl, rfl, rfl⟩
  | succ fuel ih =>
      intro t prev
      obtain ⟨he, hn, hr, hs, hh⟩ := ih (t + 1) (.sendFail t)
      rw [retryLoop]
      rw [hall t]
      simp only [Bool.false_eq_true, if_false]
      refine ⟨?_, ?_, ?_, ?_, ?_⟩
      · rw [he]
        congr 1
        by_cases hf : fuel = 0
        · subst hf
          simp
        · rw [if_neg hf, if_neg (by omega)]
          congr 1
          omega
      · simp only [List.countP_cons, isNet_netAttempt, isNet_sleep, isNet_rehandshake, hn]
        simp
      · simp only [List.countP_cons, isReset_netAttempt, isReset_sleep, isReset_rehandshake, hr]
        simp
      · simp only [List.countP_cons, isSleep_netAttempt, isSleep_sleep, isSleep_rehandshake, hs]
        simp
      · simp only [List.countP_cons, isRH_netAttempt, isRH_sleep, isRH_rehandshake, hh]
        simp

/-- Counting helper: a block of resetFile events contributes nothing to any
event predicate that ignores resets. -/
theorem countP_resetFiles (p : SendEv → Bool) (hp : ∀ j, p (SendEv.resetFile j) = false)
    (len s : Nat) :
    List.countP p ((List.range len).map (fun t => SendEv.resetFile (s + t))) = 0 := by
  rw [List.countP_eq_zero]
  intro a ha
  obtain ⟨t, _, rfl⟩ := List.mem_map.mp ha
  simp [hp]

/-- A fixed resettable File for the concrete Send runs: a two-byte
random-access backed FlowFile. -/
def c6w : GoFile := { n := 2, size := 2, ra := some (.mem [5, 6]) }

/-- C6 counterexample. A Send with retries enabled over a batch holding a
non-resettable (sequential) File whose first attempt succeeds returns no
error after a single network call, so Send does not fail with the reset
error merely because retries are enabled and a file is one-shot. Moreover,
over a resettable File with every attempt failing and RetryCount 2, the
trace starts with a network attempt before any reset, the batch is reset
exactly once (not again on each failure), and the retry sleeps and
re-handshakes after the failed retry. -/
theorem c6_send_cex :
    reset { r := some [1, 2, 3], n := 3, size := 3 : GoFile } = none ∧
    send (fun _ => true) 3 [{ r := some [1, 2, 3], n := 3, size := 3 : GoFile }] =
      ([.netAttempt 0], none) ∧
    (send (fun _ => false) 2 [c6w]).1 =
      [.netAttempt 0, .resetFile 0, .netAttempt 1, .sleep, .rehandshake] := by
  decide

/-- C6: Send over a nonempty batch always opens with the first network
attempt (files are not reset before it). If the first attempt fails with
retries enabled and some file is not resettable, Send surfaces the reset
error after exactly one network call. If every file is resettable and every
attempt fails, the trace is the first attempt, one reset pass over the whole
batch, then the retry loop; Send surfaces the failure of the last of
RetryCount attempts, resets each file exactly once in total, and sleeps and
re-handshakes once per retry. -/
theorem c6_send_spec (outcomes : Nat → Bool) (rc : Int) (files : List GoFile) :
    (files ≠ [] → ∃ (rest : List SendEv),
      (send outcomes rc files).1 = .netAttempt 0 :: rest) ∧
    (outcomes 0 = false → 0 < rc → (∃ f ∈ files, reset f = none) →
      (send outcomes rc files).2 = some .resetErr ∧
      ((send outcomes rc files).1.countP (fun ev => isNet ev)) = 1) ∧
    (files ≠ [] → 0 < rc → (∀ f ∈ files, reset f ≠ none) →
      (∀ t, outcomes t = false) →
      (send outcomes rc files).1 =
        .netAttempt 0 :: ((List.range files.length).map (fun t => SendEv.resetFile t))
          ++ (retryLoop outcomes 1 (rc.toNat - 1) (.sendFail 0)).1 ∧
      (send outcomes rc files).2 = some (.sendFail (rc.toNat - 1)) ∧
      ((send outcomes rc files).1.countP (fun ev => isNet ev)) = rc.toNat ∧
      ((send outcomes rc files).1.countP (fun ev => isReset ev)) = files.length ∧
      ((send outcomes rc files).1.countP (fun ev => isSleep ev)) = rc.toNat - 1 ∧
      ((send outcomes rc files).1.countP (fun ev => isRH ev)) = rc.toNat - 1) := by
  refine ⟨?_, ?_, ?_⟩
  · intro hne
    have h0 : files.isEmpty = false := by
      cases files with
      | nil => exact absurd rfl hne
      | cons a l => rfl
    simp only [send, h0, Bool.false_eq_true, if_false]
    by_cases ho : outcomes 0 = true
    · rw [if_pos ho]
      exact ⟨[], rfl⟩
    · rw [if_neg ho]
      by_cases hrc : rc ≤ 0
      · rw [if_pos hrc]
        exact ⟨[], rfl⟩
      · rw [if_neg hrc]
        rcases hm : (resetAll files 0).2.1 with _ | e
        · simp only [hm]
          exact ⟨(resetAll files 0).1
            ++ (retryLoop outcomes 1 (rc - 1).toNat (.sendFail 0)).1, rfl⟩
        · simp only [hm]
          exact ⟨(resetAll files 0).1, rfl⟩
  · rintro ho hrc ⟨g, hg, hgr⟩
    have hne : files ≠ [] := by
      rintro rfl
      simp at hg
    have h0 : files.isEmpty = false := by
      cases files with
      | nil => exact absurd rfl hne
      | cons a l => rfl
    obtain ⟨he2, hevs⟩ := resetAll_err files 0 ⟨g, hg, hgr⟩
    simp only [send, h0, Bool.false_eq_true, if_false, ho]
    rw [if_neg (not_le.mpr hrc)]
    simp only [he2]
    refine ⟨by trivial, ?_⟩
    rw [List.countP_cons]
    have hz : List.countP (fun ev => isNet ev) (resetAll files 0).1 = 0 := by
      rw [List.countP_eq_zero]
      intro a ha
      simp [hevs a ha]
    rw [hz]
    simp [isNet]
  · rintro hne hrc hres hall
    have h0 : files.isEmpty = false := by
      cases files with
      | nil => exact absurd rfl hne
      | cons a l => rfl
    have hfu : (rc - 1).toNat = rc.toNat - 1 := by omega
    obtain ⟨htr, hnone⟩ := resetAll_ok files hres 0
    obtain ⟨he, hn, hr, hs, hh⟩ :=
      retryLoop_allfail outcomes hall ((rc - 1).toNat) 1 (.sendFail 0)
    simp only [send, h0, Bool.false_eq_true, if_false, hall 0]
    rw [if_neg (not_le.mpr hrc)]
    simp only [hnone]
    refine ⟨?_, ?_, ?_, ?_, ?_, ?_⟩
    · rw [htr, hfu]
      simp only [Nat.zero_add]
    · rw [he]
      by_cases hf : (rc - 1).toNat = 0
      · rw [if_pos hf]
        have hq : rc.toNat - 1 = 0 := by omega
        rw [hq]
      · rw [if_neg hf]
        have hq : 1 + (rc - 1).toNat - 1 = rc.toNat - 1 := by omega
        rw [hq]
    · rw [htr, List.countP_append, List.countP_cons,
         countP_resetFiles (fun ev => isNet ev) (fun j => rfl), hn]
      simp [isNet]
      omega
    · rw [htr, List.countP_append, List.countP_cons, hr]
      have hm1 : List.countP (fun ev => isReset ev)
          ((List.range files.length).map (fun t => SendEv.resetFile (0 + t)))
          = files.length := by
        have hall2 : ∀ a ∈ (List.range files.length).map
            (fun t => SendEv.resetFile (0 + t)), (fun ev => isReset ev) a = true := by
          intro a ha
          obtain ⟨t, _, rfl⟩ := List.mem_map.mp ha
          rfl
        rw [List.countP_eq_length.mpr hall2]
        simp
      rw [hm1]
      simp [isReset]
    · rw [htr, List.countP_append, List.countP_cons,
         countP_resetFiles (fun ev => isSleep ev) (fun j => rfl), hs]
      simp [isSleep]
    · rw [htr, List.countP_append, List.countP_cons,
         countP_resetFiles (fun ev => isRH ev) (fun j => rfl), hh]
      simp [isRH]

/-- C6 witness: the all-fail branch of the Send theorem evaluated on a
concrete resettable File with RetryCount 2. -/
theorem c6_send_spec_witness :
    (send (fun _ => false) 2 [c6w]).2 = some (.sendFail 1) ∧
    ((send (fun _ => false) 2 [c6w]).1.countP (fun ev => isNet ev)) = 2 ∧
    ((send (fun _ => false) 2 [c6w]).1.countP (fun ev => isReset ev)) = 1 ∧
    ((send (fun _ => false) 2 [c6w]).1.countP (fun ev => isSleep ev)) = 1 ∧
    ((send (fun _ => false) 2 [c6w]).1.countP (fun ev => isRH ev)) = 1 := by
  have h := (c6_send_spec (fun _ => false) 2 [c6w]).2.2
    (by decide) (by decide) (by decide) (fun t => rfl)
  exact ⟨h.2.1, h.2.2.1, h.2.2.2.1, h.2.2.2.2.1, h.2.2.2.2.2⟩

end Flowfile
